import Mathlib

/-!
Verification development for the TinySpline B-spline kernel
(`src/tinyspline.h` of julianoes/tinyspline).

The repository ships the public header `tinyspline.h` (data types, error
taxonomy, and the documented contracts of every operation) together with its
test driver; the translation unit implementing the operations is not part of
the sources at hand.  Consequently the operations below are shallowly embedded
from the specification document and from the contracts stated in the header
doc comments.  Scalars (`tsReal`) are embedded as exact rationals `ℚ`; the
fuzzy knot comparator `ts_knots_equal` and the control-point distance
comparator are translated faithfully, with Euclidean distances compared
through their squares so that everything stays inside `ℚ` and is executable.

Conventions of the embedding:
* a control point is a `List ℚ` of length `dim`;
* a spline stores its control points as a list of points and its knots as a
  list of rationals, mirroring the flat interleaved C buffers;
* fallible operations return `Except TsError α`;
* machine `size_t` indices become `ℕ` (the sources never overflow them).
-/

/-- Maximum number of knots a spline can have (`TS_MAX_NUM_KNOTS`). -/
def TS_MAX_NUM_KNOTS : ℕ := 10000

/-- Fuzzy knot-comparison threshold (`TS_KNOT_EPSILON`, default precision). -/
def TS_KNOT_EPSILON : ℚ := 1 / 10000

/-- Default control-point epsilon (`TS_CONTROL_POINT_EPSILON`, double
precision build: `1e-5`). -/
def TS_CONTROL_POINT_EPSILON : ℚ := 1 / 100000

/-- Lower bound of the domain of newly created splines
(`TS_DOMAIN_DEFAULT_MIN`). -/
def TS_DOMAIN_DEFAULT_MIN : ℚ := 0

/-- Upper bound of the domain of newly created splines
(`TS_DOMAIN_DEFAULT_MAX`). -/
def TS_DOMAIN_DEFAULT_MAX : ℚ := 1

/-- Error codes of the library (`tsError`).  `TS_SUCCESS` is the success
discriminator; the remaining constructors are the failure kinds of the error
taxonomy. -/
inductive TsError where
  | TS_SUCCESS
  | TS_MALLOC
  | TS_DIM_ZERO
  | TS_DEG_GE_NCTRLP
  | TS_U_UNDEFINED
  | TS_MULTIPLICITY
  | TS_KNOTS_DECR
  | TS_NUM_KNOTS
  | TS_UNDERIVABLE
  | TS_LCTRLP_DIM_MISMATCH
  | TS_IO_ERROR
  | TS_PARSE_ERROR
  | TS_INDEX_ERROR
  | TS_NO_RESULT
  | TS_NUM_POINTS
deriving DecidableEq, Repr

/-- Knot-vector setup modes (`tsBSplineType`). -/
inductive TsBSplineType where
  | TS_OPENED
  | TS_CLAMPED
  | TS_BEZIERS
deriving DecidableEq, Repr

/-- A B-spline (`tsBSpline`): degree, dimension of each control point, the
control polygon (one inner list per control point, each of length `dim`) and
the knot vector. -/
structure TsBSpline where
  deg : ℕ
  dim : ℕ
  ctrlp : List (List ℚ)
  knots : List ℚ
deriving DecidableEq, Repr

/-- Degree accessor (`ts_bspline_degree`). -/
def ts_bspline_degree (spline : TsBSpline) : ℕ := spline.deg

/-- Order of a spline: degree plus one (`ts_bspline_order`). -/
def ts_bspline_order (spline : TsBSpline) : ℕ := spline.deg + 1

/-- Dimension accessor (`ts_bspline_dimension`). -/
def ts_bspline_dimension (spline : TsBSpline) : ℕ := spline.dim

/-- Number of control points (`ts_bspline_num_control_points`). -/
def ts_bspline_num_control_points (spline : TsBSpline) : ℕ :=
  spline.ctrlp.length

/-- Number of knots (`ts_bspline_num_knots`). -/
def ts_bspline_num_knots (spline : TsBSpline) : ℕ := spline.knots.length

/-- Fuzzy knot equality (`ts_knots_equal`): the knots are considered equal
when their distance is strictly less than `TS_KNOT_EPSILON`. -/
def ts_knots_equal (x y : ℚ) : Bool := decide (|x - y| < TS_KNOT_EPSILON)

/-- Sum of squared component differences of two points; the square of
`ts_distance`.  Working with the square keeps the value rational. -/
def ts_distance_sq (x y : List ℚ) : ℚ :=
  ((x.zip y).map (fun p => (p.1 - p.2) ^ 2)).sum

/-- Comparison `ts_distance(x, y, dim) <= eps` of the Euclidean distance with
a bound, expressed on squares so that it is exact over `ℚ`:  for `eps ≥ 0`
the distance is at most `eps` iff the squared distance is at most `eps ^ 2`,
and for `eps < 0` the comparison is always false. -/
def ts_distance_le (x y : List ℚ) (eps : ℚ) : Bool :=
  decide (0 ≤ eps) && decide (ts_distance_sq x y ≤ eps ^ 2)

/-- Multiplicity of the knot value `u` in a knot vector, under the fuzzy
comparator `ts_knots_equal` (glossary: number of occurrences of a value in
the knot vector under fuzzy equality). -/
def ts_knots_mult (knots : List ℚ) (u : ℚ) : ℕ :=
  (knots.filter (fun v => ts_knots_equal u v)).length

/-- Lower bound of the domain of a spline: `knots[deg]`
(`ts_bspline_domain`). -/
def ts_bspline_domain_min (spline : TsBSpline) : ℚ :=
  spline.knots.getD spline.deg 0

/-- Upper bound of the domain of a spline: `knots[num_control_points]`
(`ts_bspline_domain`). -/
def ts_bspline_domain_max (spline : TsBSpline) : ℚ :=
  spline.knots.getD spline.ctrlp.length 0

/-- Structural well-formedness of a spline, the data-model invariants of the
specification: positive dimension, control points of matching length,
`n_ctrl > deg` (order invariant), `|knots| = n_ctrl + deg + 1` (knot count),
a non-decreasing knot vector, and no knot value occurring more than
`deg + 1` times (multiplicity cap).  In this exact-rational embedding the
monotonicity and the multiplicity cap are stated with exact equality; the
fuzzy comparator of the validation code merely tolerates floating-point
noise around these exact invariants. -/
def WellFormed (S : TsBSpline) : Prop :=
  0 < S.dim ∧
  (∀ p ∈ S.ctrlp, p.length = S.dim) ∧
  S.deg < S.ctrlp.length ∧
  S.knots.length = S.ctrlp.length + S.deg + 1 ∧
  S.knots.Chain' (· ≤ ·) ∧
  (∀ u ∈ S.knots, S.knots.count u ≤ S.deg + 1)

instance (S : TsBSpline) : Decidable (WellFormed S) := by
  unfold WellFormed; infer_instance

/-- Uniformly spaced knot vector with opened end knots (`TS_OPENED` case of
the knot generator used by `ts_bspline_new`): `num_knots` values equally
spaced across the default domain. -/
def ts_knots_opened (num_knots : ℕ) : List ℚ :=
  (List.range num_knots).map
    (fun i => TS_DOMAIN_DEFAULT_MIN +
      (i : ℚ) * ((TS_DOMAIN_DEFAULT_MAX - TS_DOMAIN_DEFAULT_MIN) /
        ((num_knots : ℚ) - 1)))

/-- Clamped knot vector (`TS_CLAMPED` case): the first `order` knots equal
the domain minimum, the last `order` knots the domain maximum, interior
knots uniformly spaced. -/
def ts_knots_clamped (deg num_knots : ℕ) : List ℚ :=
  (List.range num_knots).map
    (fun i =>
      if i < deg + 1 then TS_DOMAIN_DEFAULT_MIN
      else if num_knots - (deg + 1) ≤ i then TS_DOMAIN_DEFAULT_MAX
      else TS_DOMAIN_DEFAULT_MIN +
        ((i : ℚ) - (deg : ℚ)) * ((TS_DOMAIN_DEFAULT_MAX -
          TS_DOMAIN_DEFAULT_MIN) / ((num_knots : ℚ) - 2 * (deg : ℚ) - 1)))

/-- Bezier-mode knot vector (`TS_BEZIERS` case): `num_knots / order` groups
of `order` equal knots, the distinct group values uniformly spaced across
the default domain (each interior knot and both endpoints repeated `order`
times). -/
def ts_knots_beziers (deg num_knots : ℕ) : List ℚ :=
  (List.range (num_knots / (deg + 1))).flatMap
    (fun g => List.replicate (deg + 1)
      (TS_DOMAIN_DEFAULT_MIN +
        (g : ℚ) * ((TS_DOMAIN_DEFAULT_MAX - TS_DOMAIN_DEFAULT_MIN) /
          ((num_knots / (deg + 1) : ℕ) - 1 : ℚ))))

/-- Modelled from the spec: `ts_bspline_new` (its implementation is not part
of the sources at hand).  Creates a spline with `num_control_points` zeroed
control points of dimension `dimension`, degree `degree`, and a knot vector
generated according to `type`.  Error contract from the header: `TS_DIM_ZERO`
if the dimension is zero, `TS_DEG_GE_NCTRLP` if the degree is not smaller
than the number of control points, and — for `TS_BEZIERS` — `TS_NUM_KNOTS`
if the number of control points is not divisible by the order (the header
states the condition as `num_control_points % degree + 1 != 0`; divisibility
by the order is the reading consistent with the knot-count invariant
`|knots| = n_ctrl + deg + 1`, since a Bezier knot vector consists of groups
of `order` equal knots). -/
def ts_bspline_new (num_control_points dimension degree : ℕ)
    (type : TsBSplineType) : Except TsError TsBSpline :=
  if dimension = 0 then .error .TS_DIM_ZERO
  else if num_control_points ≤ degree then .error .TS_DEG_GE_NCTRLP
  else
    let num_knots := num_control_points + degree + 1
    let ctrl := List.replicate num_control_points
      (List.replicate dimension (0 : ℚ))
    match type with
    | .TS_OPENED => .ok ⟨degree, dimension, ctrl, ts_knots_opened num_knots⟩
    | .TS_CLAMPED =>
        .ok ⟨degree, dimension, ctrl, ts_knots_clamped degree num_knots⟩
    | .TS_BEZIERS =>
        if num_control_points % (degree + 1) ≠ 0 then .error .TS_NUM_KNOTS
        else .ok ⟨degree, dimension, ctrl, ts_knots_beziers degree num_knots⟩

/-- De Boor net (`tsDeBoorNet`): the evaluated knot `u`, the span index `k`,
the multiplicity `s` of `u`, the number of insertions `h`, the dimension of
the points, all points of the net, and the index into `points` at which the
result starts (`result` is a pointer into `points` in the C sources). -/
structure TsDeBoorNet where
  u : ℚ
  k : ℕ
  s : ℕ
  h : ℕ
  dim : ℕ
  points : List (List ℚ)
  resultIdx : ℕ
deriving DecidableEq, Repr

/-- Knot accessor of a net (`ts_deboornet_knot`). -/
def ts_deboornet_knot (net : TsDeBoorNet) : ℚ := net.u

/-- Span-index accessor of a net (`ts_deboornet_index`). -/
def ts_deboornet_index (net : TsDeBoorNet) : ℕ := net.k

/-- Multiplicity accessor of a net (`ts_deboornet_multiplicity`). -/
def ts_deboornet_multiplicity (net : TsDeBoorNet) : ℕ := net.s

/-- Number of insertions performed to evaluate the knot of a net
(`ts_deboornet_num_insertions`). -/
def ts_deboornet_num_insertions (net : TsDeBoorNet) : ℕ := net.h

/-- Number of points of a net (`ts_deboornet_num_points`). -/
def ts_deboornet_num_points (net : TsDeBoorNet) : ℕ := net.points.length

/-- Result of a net (`ts_deboornet_result`): the suffix of `points` the
result pointer refers to. -/
def ts_deboornet_result (net : TsDeBoorNet) : List (List ℚ) :=
  net.points.drop net.resultIdx

/-- Number of points in the result array of a net
(`ts_deboornet_num_result`). -/
def ts_deboornet_num_result (net : TsDeBoorNet) : ℕ :=
  net.points.length - net.resultIdx

/-- Modelled from the spec: the knot-location scan of the evaluation engine
(`ts_int_bspline_find_u` in the missing translation unit; specification
§4.2 step 1).  Walking the knot vector from the front, every knot that is
fuzzy-equal to `u` increments the multiplicity `s`; the walk stops at the
first knot that is strictly greater than `u` without being fuzzy-equal to
it.  Returns the stop position (one past the span index) together with
`s`. -/
def ts_int_find_u_go (u : ℚ) : List ℚ → ℕ → ℕ → ℕ × ℕ
  | [], j, s => (j, s)
  | v :: rest, j, s =>
      if ts_knots_equal u v then ts_int_find_u_go u rest (j + 1) (s + 1)
      else if u < v then (j, s)
      else ts_int_find_u_go u rest (j + 1) s

/-- Knot location: stop position and multiplicity for `u` in `knots`. -/
def ts_int_find_u (knots : List ℚ) (u : ℚ) : ℕ × ℕ :=
  ts_int_find_u_go u knots 0 0

/-- Affine combination `(1 - a) * x + a * y` of two points, componentwise
(the De Boor blend of specification §4.2 step 4). -/
def ts_int_affine (a : ℚ) (x y : List ℚ) : List ℚ :=
  List.zipWith (fun c d => (1 - a) * c + a * d) x y

/-- Modelled from the spec: one level of the triangular De Boor net
(specification §4.2 step 4).  Level `r` is obtained from level `r - 1` by
blending adjacent points with
`a = (u - knots[i + k - deg]) / (knots[i + 1 + k - r] - knots[i + k - deg])`
where `i` counts points of the level offset by `r`. -/
def ts_int_deboor_step (u : ℚ) (knots : List ℚ) (k deg r : ℕ)
    (q : List (List ℚ)) : List (List ℚ) :=
  (List.range (q.length - 1)).map
    (fun j =>
      let i := j + r
      let lo := knots.getD (i + k - deg) 0
      let hi := knots.getD (i + 1 + k - r) 0
      let a := (u - lo) / (hi - lo)
      ts_int_affine a (q.getD j []) (q.getD (j + 1) []))

/-- Levels `0 … r` of the triangular De Boor net, last level first. -/
def ts_int_deboor_levels (u : ℚ) (knots : List ℚ) (k deg : ℕ)
    (init : List (List ℚ)) : ℕ → List (List (List ℚ))
  | 0 => [init]
  | r + 1 =>
      let prev := ts_int_deboor_levels u knots k deg init r
      ts_int_deboor_step u knots k deg (r + 1) (prev.headD []) :: prev

/-- Modelled from the spec: the core of `ts_bspline_eval` once the parameter
has been verified to lie in the domain (specification §4.2 steps 1-4 and
the net description of the header).  Writing `order = deg + 1`:
if the multiplicity `s` of `u` reaches the order at a domain boundary the
net holds the single corresponding end control point with `h = 0`; if it
reaches the order at an internal knot the net holds the two control points
flanking the discontinuity and `result` refers to the pair; otherwise
`h = deg - s` blend levels are computed and every intermediate point is
retained, `result` being the final apex.  The specification leaves the
algorithm undefined when `s` exceeds the order (its net description
guarantees `1 ≤ num_result ≤ 2`); the embedding surfaces that case with
`TS_MULTIPLICITY`, the taxonomy kind for `multiplicity(knot) > order`. -/
def ts_int_bspline_eval_woa (S : TsBSpline) (u : ℚ) :
    Except TsError TsDeBoorNet :=
  let deg := S.deg
  let order := deg + 1
  let found := ts_int_find_u S.knots u
  let k := found.1 - 1
  let s := found.2
  if order < s then .error .TS_MULTIPLICITY
  else if s = order then
    if ts_knots_equal u (ts_bspline_domain_min S) then
      .ok ⟨u, k, s, 0, S.dim, [S.ctrlp.headD []], 0⟩
    else if ts_knots_equal u (ts_bspline_domain_max S) then
      .ok ⟨u, k, s, 0, S.dim, [S.ctrlp.getLastD []], 0⟩
    else
      .ok ⟨u, k, s, 0, S.dim,
        [S.ctrlp.getD (k - s) [], S.ctrlp.getD (k - s + 1) []], 0⟩
  else
    let h := deg - s
    let init := (S.ctrlp.drop (k - deg)).take (deg - s + 1)
    let levels := ts_int_deboor_levels u S.knots k deg init h
    let pts := levels.reverse.flatten
    .ok ⟨u, k, s, h, S.dim, pts, pts.length - 1⟩

/-- Modelled from the spec: `ts_bspline_eval` (specification §4.2).  The
parameter is accepted when it lies in the closed domain
`[knots[deg], knots[n_ctrl]]`; a parameter within `TS_KNOT_EPSILON` outside
a boundary is clamped to that boundary; anything farther outside is
rejected with `TS_U_UNDEFINED`. -/
def ts_bspline_eval (S : TsBSpline) (u : ℚ) : Except TsError TsDeBoorNet :=
  let lo := ts_bspline_domain_min S
  let hi := ts_bspline_domain_max S
  if u < lo then
    if ts_knots_equal u lo then ts_int_bspline_eval_woa S lo
    else .error .TS_U_UNDEFINED
  else if hi < u then
    if ts_knots_equal u hi then ts_int_bspline_eval_woa S hi
    else .error .TS_U_UNDEFINED
  else ts_int_bspline_eval_woa S u

/-- Componentwise sum of two points. -/
def ts_int_pt_add (x y : List ℚ) : List ℚ := List.zipWith (· + ·) x y

/-- Componentwise difference of two points. -/
def ts_int_pt_sub (x y : List ℚ) : List ℚ := List.zipWith (· - ·) x y

/-- Scalar multiple of a point. -/
def ts_int_pt_smul (a : ℚ) (x : List ℚ) : List ℚ := x.map (fun c => a * c)

/-- Modelled from the spec: a single Boehm knot insertion
(specification §4.3, the implementation is not part of the sources at
hand).  With `k` the span index and `s` the fuzzy multiplicity of `u`, the
knot `u` is inserted after position `k`, control points
`i = k - deg + 1 … k - s` are replaced by the affine blends with weight
`a_i = (u - knots[i]) / (knots[i + deg] - knots[i])`, and the remaining
control points stay (the ones above the blend range shift up by one). -/
def ts_int_bspline_insert_knot_one (S : TsBSpline) (u : ℚ) : TsBSpline :=
  let found := ts_int_find_u S.knots u
  let k := found.1 - 1
  let s := found.2
  let newKnots := S.knots.take (k + 1) ++ u :: S.knots.drop (k + 1)
  let P := fun i => S.ctrlp.getD i []
  let newCtrl := (List.range (S.ctrlp.length + 1)).map
    (fun i =>
      if i + S.deg ≤ k then P i
      else if i + s ≤ k then
        let a := (u - S.knots.getD i 0) /
          (S.knots.getD (i + S.deg) 0 - S.knots.getD i 0)
        ts_int_affine a (P (i - 1)) (P i)
      else P (i - 1))
  ⟨S.deg, S.dim, newCtrl, newKnots⟩

/-- Iterated Boehm insertion. -/
def ts_int_bspline_insert_knot_iter (u : ℚ) (S : TsBSpline) :
    ℕ → TsBSpline
  | 0 => S
  | n + 1 =>
      ts_int_bspline_insert_knot_one
        (ts_int_bspline_insert_knot_iter u S n) u

/-- Modelled from the spec: `ts_bspline_insert_knot` (specification §4.3 and
the header contract).  Rejects a knot outside the domain with
`TS_U_UNDEFINED` (values within `TS_KNOT_EPSILON` of a boundary are clamped
to it, as in evaluation) and rejects with `TS_MULTIPLICITY` when the fuzzy
multiplicity of the knot plus `num` exceeds the order.  Otherwise performs
`num` Boehm insertions and also returns the last index of the inserted knot
in the refined knot vector. -/
def ts_bspline_insert_knot (S : TsBSpline) (u : ℚ) (num : ℕ) :
    Except TsError (TsBSpline × ℕ) :=
  let lo := ts_bspline_domain_min S
  let hi := ts_bspline_domain_max S
  if u < lo ∧ ¬ts_knots_equal u lo then .error .TS_U_UNDEFINED
  else if hi < u ∧ ¬ts_knots_equal u hi then .error .TS_U_UNDEFINED
  else
    let u2 := if u < lo then lo else if hi < u then hi else u
    let s := (ts_int_find_u S.knots u2).2
    if S.deg + 1 < s + num then .error .TS_MULTIPLICITY
    else
      let R := ts_int_bspline_insert_knot_iter u2 S num
      .ok (R, (ts_int_find_u R.knots u2).1 - 1)

/-- Internal full-multiplicity knots of a spline: positions `i` that start a
run of knots whose value has fuzzy multiplicity equal to the order and is
not fuzzy-equal to either domain boundary (the discontinuities that the
derivative pass of specification §4.4 must merge or reject). -/
def ts_int_discontinuities (S : TsBSpline) : List ℕ :=
  (List.range S.knots.length).filter
    (fun i =>
      decide (ts_knots_mult S.knots (S.knots.getD i 0) = S.deg + 1) &&
      !ts_knots_equal (S.knots.getD i 0) (ts_bspline_domain_min S) &&
      !ts_knots_equal (S.knots.getD i 0) (ts_bspline_domain_max S) &&
      (decide (i = 0) ||
        !ts_knots_equal (S.knots.getD (i - 1) 0) (S.knots.getD i 0)))

/-- Removal of the elements at the listed positions of a list. -/
def ts_int_remove_idxs (l : List (List ℚ)) (idxs : List ℕ) :
    List (List ℚ) :=
  (l.enum.filter (fun p => decide (p.1 ∉ idxs))).map (fun p => p.2)

/-- Removal of the knots at the listed positions of a knot vector. -/
def ts_int_remove_knot_idxs (l : List ℚ) (idxs : List ℕ) : List ℚ :=
  (l.enum.filter (fun p => decide (p.1 ∉ idxs))).map (fun p => p.2)

/-- Modelled from the spec: a single derivation (specification §4.4,
`ts_bspline_derive` of the header; the implementation is not part of the
sources at hand).  A degree-0 spline derives to the zero point of the same
dimension over the same domain.  Otherwise every internal knot of full
multiplicity is inspected first: when `eps ≥ 0` and the two control points
flanking such a knot are more than `eps` apart the spline is not derivable
(`TS_UNDERIVABLE`); flanking points within `eps` — or any flanking points
when `eps < 0`, the check being suppressed — are merged by keeping the
first of the pair and dropping one knot of the run.  The derivative then
has degree `deg - 1`, control points
`Q_i = deg * (P_{i+1} - P_i) / (knots[i + deg + 1] - knots[i + 1])`
(control points with vanishing denominator are dropped), and the knot
vector loses its first and last knot. -/
def ts_int_bspline_derive_one (S : TsBSpline) (eps : ℚ) :
    Except TsError TsBSpline :=
  if S.deg = 0 then
    .ok ⟨0, S.dim, [List.replicate S.dim 0],
      [ts_bspline_domain_min S, ts_bspline_domain_max S]⟩
  else
    let disc := ts_int_discontinuities S
    if 0 ≤ eps ∧ disc.any
        (fun i => !ts_distance_le (S.ctrlp.getD (i - 1) [])
          (S.ctrlp.getD i []) eps) then
      .error .TS_UNDERIVABLE
    else
      let ctrl2 := ts_int_remove_idxs S.ctrlp disc
      let knots2 := ts_int_remove_knot_idxs S.knots disc
      let newCtrl := (List.range (ctrl2.length - 1)).filterMap
        (fun i =>
          let denom := knots2.getD (i + S.deg + 1) 0 - knots2.getD (i + 1) 0
          if denom = 0 then none
          else some (ts_int_pt_smul ((S.deg : ℚ) / denom)
            (ts_int_pt_sub (ctrl2.getD (i + 1) []) (ctrl2.getD i []))))
      .ok ⟨S.deg - 1, S.dim, newCtrl, knots2.drop 1 |>.dropLast⟩

/-- Iterated derivation, the recursion of `ts_bspline_derive`. -/
def ts_bspline_derive (S : TsBSpline) (n : ℕ) (eps : ℚ) :
    Except TsError TsBSpline :=
  match n with
  | 0 => .ok S
  | m + 1 => ts_bspline_derive S m eps >>= (ts_int_bspline_derive_one · eps)

/-- Modelled from the spec: `ts_bspline_is_closed` (specification §4.2).
For every derivative order `0 … deg - 1` the first and last control point
of the derivative spline of that order are compared; the spline is closed
iff their Euclidean distance is at most `eps` at every order.  The
derivatives are computed with a negative epsilon, which suppresses the
discontinuity check of `ts_bspline_derive`. -/
def ts_bspline_is_closed (S : TsBSpline) (eps : ℚ) :
    Except TsError Bool :=
  (List.range S.deg).allM
    (fun i => do
      let D ← ts_bspline_derive S i (-1)
      pure (ts_distance_le (D.ctrlp.headD []) (D.ctrlp.getLastD []) eps))

/-- Reading `num` points of dimension `dim` out of a flat interleaved
coordinate buffer (the C layout `[x0, y0, x1, y1, …]`). -/
def ts_int_chunk_points (points : List ℚ) (num dim : ℕ) :
    List (List ℚ) :=
  (List.range num).map (fun i => (points.drop (i * dim)).take dim)

/-- Forward sweep of the Thomas algorithm for the tridiagonal system
`M[i-1] + 4 M[i] + M[i+1] = d[i]` of the natural cubic interpolation
(specification §4.4): returns the per-row factors and partially eliminated
right-hand sides. -/
def ts_int_thomas_forward (dim : ℕ) : List (List ℚ) → ℚ → List ℚ →
    List (ℚ × List ℚ)
  | [], _, _ => []
  | d :: rest, cprev, dprev =>
      let m := 4 - cprev
      let cp := 1 / m
      let dp := ts_int_pt_smul (1 / m) (ts_int_pt_sub d dprev)
      (cp, dp) :: ts_int_thomas_forward dim rest cp dp

/-- Backward substitution of the Thomas algorithm; expects the forward rows
in reverse order and accumulates the solution front to back. -/
def ts_int_thomas_backward : List (ℚ × List ℚ) → List (List ℚ) →
    List (List ℚ)
  | [], acc => acc
  | (cp, dp) :: rest, acc =>
      let M :=
        match acc with
        | [] => dp
        | mnext :: _ => ts_int_pt_sub dp (ts_int_pt_smul cp mnext)
      ts_int_thomas_backward rest (M :: acc)

/-- Second derivatives of the natural cubic interpolant through the given
points at uniform parameters: zero at both ends, the interior values the
solution of the tridiagonal system
`M[i-1] + 4 M[i] + M[i+1] = 6 (p[i-1] - 2 p[i] + p[i+1])`. -/
def ts_int_natural_ms (pts : List (List ℚ)) (dim : ℕ) : List (List ℚ) :=
  let z := List.replicate dim (0 : ℚ)
  let n := pts.length
  let ds := (List.range (n - 2)).map
    (fun i =>
      let p0 := pts.getD i []
      let p1 := pts.getD (i + 1) []
      let p2 := pts.getD (i + 2) []
      ts_int_pt_smul 6 (ts_int_pt_add (ts_int_pt_sub p0 (ts_int_pt_smul 2 p1)) p2))
  let rows := ts_int_thomas_forward dim ds 0 z
  z :: (ts_int_thomas_backward rows.reverse [] ++ [z])

/-- Bezier control points of the natural cubic interpolant on the segment
from `p0` to `p1` with second derivatives `m0` and `m1` at the ends (the
cubic-to-Bezier conversion of the interpolation constructor). -/
def ts_int_natural_segment (p0 p1 m0 m1 : List ℚ) : List (List ℚ) :=
  let dp := ts_int_pt_sub p1 p0
  let d0 := ts_int_pt_sub dp
    (ts_int_pt_add (ts_int_pt_smul (1 / 3) m0) (ts_int_pt_smul (1 / 6) m1))
  let d1 := ts_int_pt_add dp
    (ts_int_pt_add (ts_int_pt_smul (1 / 6) m0) (ts_int_pt_smul (1 / 3) m1))
  [p0, ts_int_pt_add p0 (ts_int_pt_smul (1 / 3) d0),
    ts_int_pt_sub p1 (ts_int_pt_smul (1 / 3) d1), p1]

/-- Modelled from the spec: `ts_bspline_interpolate_cubic_natural`
(specification §4.4; the implementation is not part of the sources at
hand).  Rejects dimension zero with `TS_DIM_ZERO` and an empty point list
with `TS_NUM_POINTS`.  A single point yields the degenerate degree-0 point
spline of the data model (one control point, knot vector `[0, 1]`).
Otherwise the natural cubic through the `n` points (second derivative zero
at the ends, uniform parameters) is emitted as the chain of `n - 1` cubic
Bezier segments: degree 3, `4 (n - 1)` control points, Bezier-mode knot
vector. -/
def ts_bspline_interpolate_cubic_natural (points : List ℚ)
    (num_points dimension : ℕ) : Except TsError TsBSpline :=
  if dimension = 0 then .error .TS_DIM_ZERO
  else if num_points = 0 then .error .TS_NUM_POINTS
  else
    let pts := ts_int_chunk_points points num_points dimension
    if num_points = 1 then
      .ok ⟨0, dimension, [pts.headD []], ts_knots_clamped 0 2⟩
    else
      let ms := ts_int_natural_ms pts dimension
      let ctrl := (List.range (num_points - 1)).flatMap
        (fun i => ts_int_natural_segment (pts.getD i []) (pts.getD (i + 1) [])
          (ms.getD i []) (ms.getD (i + 1) []))
      .ok ⟨3, dimension, ctrl, ts_knots_beziers 3 (ctrl.length + 4)⟩

/-- Duplicate filter of the catmull-rom constructor: consecutive points at
distance at most `eps` from the last retained point are dropped. -/
def ts_int_filter_dupes_go (eps : ℚ) (prev : List ℚ) :
    List (List ℚ) → List (List ℚ)
  | [] => []
  | q :: rest =>
      if ts_distance_le prev q eps then ts_int_filter_dupes_go eps prev rest
      else q :: ts_int_filter_dupes_go eps q rest

/-- Duplicate filter of the catmull-rom constructor, starting at the first
point (which is always retained). -/
def ts_int_filter_dupes (eps : ℚ) : List (List ℚ) → List (List ℚ)
  | [] => []
  | p :: rest => p :: ts_int_filter_dupes_go eps p rest

/-- Ghost endpoint of the catmull-rom constructor: the given point when
present and farther than `eps` from the anchoring end point, otherwise the
mirror image `2 * anchor - neighbor` of the neighboring point. -/
def ts_int_catmull_ghost (eps : ℚ) (given : Option (List ℚ))
    (anchor neighbor : List ℚ) : List ℚ :=
  match given with
  | some f =>
      if ts_distance_le f anchor eps then
        ts_int_pt_sub (ts_int_pt_smul 2 anchor) neighbor
      else f
  | none => ts_int_pt_sub (ts_int_pt_smul 2 anchor) neighbor

/-- Bezier control points of one catmull-rom quadruple `(P0, P1, P2, P3)`
via the Barry-Goldman recurrence (specification §4.4): the knot increments
are `t[i+1] - t[i] = dist(P[i], P[i+1]) ^ alpha`, provided by the
parameter `powf` (see `ts_bspline_interpolate_catmull_rom`), the tangents
`m1`, `m2` are the standard centripetal blends, and the emitted segment is
`[P1, P1 + m1/3, P2 - m2/3, P2]`. -/
def ts_int_catmull_segment (powf : List ℚ → List ℚ → ℚ → ℚ) (alpha : ℚ)
    (p0 p1 p2 p3 : List ℚ) : List (List ℚ) :=
  let t1 := powf p0 p1 alpha
  let t2 := t1 + powf p1 p2 alpha
  let t3 := t2 + powf p2 p3 alpha
  let g01 := ts_int_pt_smul (1 / t1) (ts_int_pt_sub p1 p0)
  let g12 := ts_int_pt_smul (1 / (t2 - t1)) (ts_int_pt_sub p2 p1)
  let g23 := ts_int_pt_smul (1 / (t3 - t2)) (ts_int_pt_sub p3 p2)
  let m1 := ts_int_pt_smul (t2 - t1)
    (ts_int_pt_add (ts_int_pt_smul ((t2 - t1) / t2) g01)
      (ts_int_pt_smul (t1 / t2) g12))
  let m2 := ts_int_pt_smul (t2 - t1)
    (ts_int_pt_add (ts_int_pt_smul ((t3 - t2) / (t3 - t1)) g12)
      (ts_int_pt_smul ((t2 - t1) / (t3 - t1)) g23))
  [p1, ts_int_pt_add p1 (ts_int_pt_smul (1 / 3) m1),
    ts_int_pt_sub p2 (ts_int_pt_smul (1 / 3) m2), p2]

/-- Modelled from the spec: `ts_bspline_interpolate_catmull_rom`
(specification §4.4 and the header contract; the implementation is not part
of the sources at hand).  Rejects dimension zero with `TS_DIM_ZERO` and an
empty point list with `TS_NUM_POINTS`.  Consecutive points closer than
`|epsilon|` are filtered out; a single surviving point yields the
degenerate degree-0 point spline.  The parameter `alpha` is trimmed to
`[0, 1]`.  The ghost endpoints come from `first` / `last` when given and
farther than `|epsilon|` from the surviving end points, and are mirrored
from the two outermost surviving points otherwise.  Every quadruple of
consecutive points then contributes one cubic Bezier segment via the
Barry-Goldman recurrence.  The parameterization power
`dist(p, q) ^ alpha` is an irrational real in general; the embedding takes
it as the function parameter `powf`, leaving the claims about the
constructor quantified over it. -/
def ts_bspline_interpolate_catmull_rom (powf : List ℚ → List ℚ → ℚ → ℚ)
    (points : List ℚ) (num_points dimension : ℕ) (alpha : ℚ)
    (first last : Option (List ℚ)) (epsilon : ℚ) :
    Except TsError TsBSpline :=
  if dimension = 0 then .error .TS_DIM_ZERO
  else if num_points = 0 then .error .TS_NUM_POINTS
  else
    let eps := |epsilon|
    let pts := ts_int_filter_dupes eps
      (ts_int_chunk_points points num_points dimension)
    if pts.length = 1 then
      .ok ⟨0, dimension, [pts.headD []], ts_knots_clamped 0 2⟩
    else
      let a := if alpha < 0 then 0 else if 1 < alpha then 1 else alpha
      let p0 := pts.headD []
      let p1 := pts.getD 1 []
      let q1 := pts.getD (pts.length - 2) []
      let q0 := pts.getLastD []
      let ghostFirst := ts_int_catmull_ghost eps first p0 p1
      let ghostLast := ts_int_catmull_ghost eps last q0 q1
      let ext := ghostFirst :: pts ++ [ghostLast]
      let ctrl := (List.range (pts.length - 1)).flatMap
        (fun i => ts_int_catmull_segment powf a (ext.getD i [])
          (ext.getD (i + 1) []) (ext.getD (i + 2) []) (ext.getD (i + 3) []))
      .ok ⟨3, dimension, ctrl, ts_knots_beziers 3 (ctrl.length + 4)⟩

/-- Modelled from the spec: `ts_bspline_copy` over an explicit handle store
(the C function receives two pointers; the embedding indexes handles by
natural numbers, a handle holding `none` when its data points to `NULL`).
Header contract: creates a deep copy of `src` in `dest`; does nothing if
`src == dest`; returns `TS_SUCCESS`. -/
def ts_bspline_copy (src dest : ℕ) (store : ℕ → Option TsBSpline) :
    (ℕ → Option TsBSpline) × TsError :=
  if src = dest then (store, .TS_SUCCESS)
  else (Function.update store dest (store src), .TS_SUCCESS)

/-- Modelled from the spec: `ts_bspline_move` over an explicit handle store.
Header contract: moves the ownership of the data of `src` to `dest`, after
which the data of `src` points to `NULL`; does nothing if
`src == dest`. -/
def ts_bspline_move (src dest : ℕ) (store : ℕ → Option TsBSpline) :
    ℕ → Option TsBSpline :=
  if src = dest then store
  else Function.update (Function.update store dest (store src)) src none

/-- Continuation predicate of the knot-location scan: the walk continues
past a knot that is fuzzy-equal to `u` or not greater than `u`. -/
def ts_int_cont (u v : ℚ) : Bool := ts_knots_equal u v || decide (v ≤ u)

theorem ts_int_find_u_go_eq (u : ℚ) (l : List ℚ) (j s : ℕ) :
    ts_int_find_u_go u l j s =
      (j + (l.takeWhile (ts_int_cont u)).length,
        s + ((l.takeWhile (ts_int_cont u)).filter
          (fun v => ts_knots_equal u v)).length) := by
  induction l generalizing j s with
  | nil => simp [ts_int_find_u_go]
  | cons v rest ih =>
      by_cases hf : ts_knots_equal u v
      · have hc : ts_int_cont u v = true := by simp [ts_int_cont, hf]
        simp only [ts_int_find_u_go, hf, if_true, List.takeWhile_cons, hc,
          List.filter_cons, List.length_cons, ih]
        simp only [Prod.mk.injEq]
        constructor <;> omega
      · have hf2 : ts_knots_equal u v = false := by simpa using hf
        by_cases hlt : u < v
        · have hc : ts_int_cont u v = false := by
            simp [ts_int_cont, hf2]
            linarith
          simp [ts_int_find_u_go, hf2, hlt, List.takeWhile_cons, hc]
        · have hc : ts_int_cont u v = true := by
            simp [ts_int_cont, hf2]
            linarith [not_lt.mp hlt]
          simp only [ts_int_find_u_go, hf2, Bool.false_eq_true, if_false,
            hlt, List.takeWhile_cons, hc, if_true, List.filter_cons,
            List.length_cons]
          rw [ih]
          simp only [Prod.mk.injEq, and_true]
          omega

theorem ts_int_length_takeWhile_ge {α : Type} (d : α) (P : α → Bool)
    (l : List α) (m : ℕ) (hm : m ≤ l.length)
    (h : ∀ j, j < m → P (l.getD j d) = true) :
    m ≤ (l.takeWhile P).length := by
  induction l generalizing m with
  | nil => simpa using hm
  | cons v rest ih =>
      match m with
      | 0 => exact Nat.zero_le _
      | m + 1 =>
          have hv : P v = true := h 0 (Nat.succ_pos m)
          simp only [List.takeWhile_cons, hv, if_true, List.length_cons]
          have := ih m (by simpa using hm)
            (fun j hj => h (j + 1) (by omega))
          omega

theorem ts_int_takeWhile_break {α : Type} (d : α) (P : α → Bool)
    (l : List α) (h : (l.takeWhile P).length < l.length) :
    P (l.getD (l.takeWhile P).length d) = false := by
  induction l with
  | nil => simp at h
  | cons v rest ih =>
      by_cases hv : P v
      · simp only [List.takeWhile_cons, hv, if_true, List.length_cons] at h ⊢
        simpa using ih (by omega)
      · have hv2 : P v = false := by simpa using hv
        simp [List.takeWhile_cons, hv2]

theorem ts_int_getD_mono (l : List ℚ) (hc : l.Chain' (· ≤ ·)) {i j : ℕ}
    (hij : i ≤ j) (hj : j < l.length) : l.getD i 0 ≤ l.getD j 0 := by
  rcases eq_or_lt_of_le hij with rfl | hlt
  · exact le_refl _
  · have hp : l.Pairwise (· ≤ ·) := List.chain'_iff_pairwise.mp hc
    rw [List.getD_eq_getElem l 0 (by omega), List.getD_eq_getElem l 0 hj]
    exact List.pairwise_iff_getElem.mp hp i j (by omega) hj hlt

theorem ts_int_scan_lower (u : ℚ) (l : List ℚ) (hp : l.Pairwise (· ≤ ·))
    (deg : ℕ) (hdeg : deg < l.length) (hlo : l.getD deg 0 ≤ u) :
    deg < (l.takeWhile (ts_int_cont u)).length := by
  have h := ts_int_length_takeWhile_ge 0 (ts_int_cont u) l (deg + 1)
    (by omega) ?_
  · omega
  · intro j hj
    have hmono : l.getD j 0 ≤ l.getD deg 0 :=
      ts_int_getD_mono l (List.chain'_iff_pairwise.mpr hp) (by omega) hdeg
    have hle : l.getD j 0 ≤ u := le_trans hmono hlo
    have hd : decide (l.getD j 0 ≤ u) = true := decide_eq_true hle
    simp only [ts_int_cont, hd, Bool.or_true]

theorem ts_int_scan_mult (u : ℚ) (l : List ℚ) (hp : l.Pairwise (· ≤ ·)) :
    ts_knots_mult l u =
      ((l.takeWhile (ts_int_cont u)).filter
        (fun v => ts_knots_equal u v)).length := by
  induction l with
  | nil => simp [ts_knots_mult]
  | cons v rest ih =>
      have hp2 : rest.Pairwise (· ≤ ·) := (List.pairwise_cons.mp hp).2
      have hv : ∀ x ∈ rest, v ≤ x := (List.pairwise_cons.mp hp).1
      by_cases hcont : ts_int_cont u v = true
      · by_cases hfz : ts_knots_equal u v
        · simp [ts_knots_mult, List.takeWhile_cons, hcont, List.filter_cons,
            hfz, ← ih hp2, ts_knots_mult]
        · have hfz2 : ts_knots_equal u v = false := by simpa using hfz
          simp [ts_knots_mult, List.takeWhile_cons, hcont, List.filter_cons,
            hfz2, ← ih hp2, ts_knots_mult]
      · have hcont2 : ts_int_cont u v = false := by simpa using hcont
        have hvu : u < v ∧ ts_knots_equal u v = false := by
          constructor
          · by_contra hle
            push_neg at hle
            simp [ts_int_cont, hle] at hcont2
          · by_contra hne
            simp only [Bool.not_eq_false] at hne
            simp [ts_int_cont, hne] at hcont2
        have hveps : TS_KNOT_EPSILON ≤ v - u := by
          have := hvu.2
          simp only [ts_knots_equal, decide_eq_false_iff_not, not_lt] at this
          have habs : |u - v| = v - u := by
            rw [abs_sub_comm]
            exact abs_of_nonneg (by linarith [hvu.1])
          linarith [habs ▸ this]
        have hnone : ∀ x ∈ v :: rest, ts_knots_equal u x = false := by
          intro x hx
          have hxv : v ≤ x := by
            rcases List.mem_cons.mp hx with rfl | hxr
            · exact le_refl x
            · exact hv x hxr
          simp only [ts_knots_equal, decide_eq_false_iff_not, not_lt]
          have habs2 : x - u ≤ |u - x| := by
            rw [abs_sub_comm]
            exact le_abs_self _
          linarith
        have hfe : (v :: rest).filter (fun x => ts_knots_equal u x) = [] :=
          List.filter_eq_nil_iff.mpr
            (fun x hx => by simp [hnone x hx])
        simp [ts_knots_mult, hfe, List.takeWhile_cons, hcont2]

theorem ts_int_scan_upper (u : ℚ) (l : List ℚ) (hp : l.Pairwise (· ≤ ·))
    (nc : ℕ) (hnc : nc < l.length) (hhi : u ≤ l.getD nc 0) :
    (l.takeWhile (ts_int_cont u)).length ≤
      nc + ((l.takeWhile (ts_int_cont u)).filter
        (fun v => ts_knots_equal u v)).length := by
  by_cases hb : (l.takeWhile (ts_int_cont u)).length ≤ nc
  · omega
  · push_neg at hb
    have hTlen : (l.takeWhile (ts_int_cont u)).length ≤ l.length :=
      (List.takeWhile_prefix _).length_le
    have hpre : l.takeWhile (ts_int_cont u) =
        l.take (l.takeWhile (ts_int_cont u)).length :=
      List.prefix_iff_eq_take.mp (List.takeWhile_prefix _)
    have hall : ∀ x ∈ (l.takeWhile (ts_int_cont u)).drop nc,
        ts_knots_equal u x = true := by
      intro x hx
      have hxT : x ∈ l.takeWhile (ts_int_cont u) := List.mem_of_mem_drop hx
      have hcont : ts_int_cont u x = true := List.mem_takeWhile_imp hxT
      obtain ⟨i, hi, hxi⟩ := List.mem_iff_getElem.mp hx
      have hlen : i + nc < (l.takeWhile (ts_int_cont u)).length := by
        have := List.length_drop nc (l.takeWhile (ts_int_cont u))
        omega
      have h4 : nc + i < l.length := by omega
      have hx2 : x = l.getD (nc + i) 0 := by
        rw [List.getD_eq_getElem l 0 h4, ← hxi, List.getElem_drop,
          List.getElem_of_eq hpre, List.getElem_take]
      have hge : l.getD nc 0 ≤ l.getD (nc + i) 0 :=
        ts_int_getD_mono l (List.chain'_iff_pairwise.mpr hp)
          (by omega) (by omega)
      have hxu : u ≤ x := by rw [hx2]; exact le_trans hhi hge
      have hor : ts_knots_equal u x = true ∨ x ≤ u := by
        simpa [ts_int_cont] using hcont
      rcases hor with hfz | hle
      · exact hfz
      · have hxequ : x = u := le_antisymm hle hxu
        simp [ts_knots_equal, hxequ, TS_KNOT_EPSILON]
    have hflt : ((l.takeWhile (ts_int_cont u)).drop nc).filter
        (fun v => ts_knots_equal u v) =
        (l.takeWhile (ts_int_cont u)).drop nc :=
      List.filter_eq_self.mpr hall
    have hsplit : (l.takeWhile (ts_int_cont u)).filter
        (fun v => ts_knots_equal u v) =
        ((l.takeWhile (ts_int_cont u)).take nc).filter
          (fun v => ts_knots_equal u v) ++
        ((l.takeWhile (ts_int_cont u)).drop nc).filter
          (fun v => ts_knots_equal u v) := by
      rw [← List.filter_append, List.take_append_drop]
    have hlen2 := congrArg List.length hsplit
    rw [List.length_append, hflt, List.length_drop] at hlen2
    omega

theorem ts_int_deboor_levels_reverse (u : ℚ) (knots : List ℚ) (k deg : ℕ)
    (init : List (List ℚ)) (r : ℕ) :
    ∃ rest, (ts_int_deboor_levels u knots k deg init r).reverse =
      init :: rest := by
  induction r with
  | zero => exact ⟨[], by simp [ts_int_deboor_levels]⟩
  | succ m ih =>
      obtain ⟨rest, hrest⟩ := ih
      exact ⟨rest ++ [ts_int_deboor_step u knots k deg (m + 1)
        ((ts_int_deboor_levels u knots k deg init m).headD [])],
        by simp [ts_int_deboor_levels, hrest]⟩

set_option maxHeartbeats 1000000

/-- C1 (amended): for every well-formed spline and every parameter `u` in its
closed domain whose fuzzy multiplicity does not exceed the order,
`ts_bspline_eval` produces a net whose result holds one or two points
(`1 ≤ num_result ≤ 2`); it holds two points exactly when the multiplicity of
`u` equals the order away from both domain boundaries (a discontinuity at an
internal knot), and one point in every other case — in particular, when the
multiplicity equals the order at a domain boundary, the single result is the
corresponding (first or last) control point and the number of insertions `h`
is `0`.  The amendment with respect to the original claim is the
multiplicity hypothesis: a parameter fuzzy-equal to more than `order` knots
is rejected (see the counterexample). -/
theorem ts_bspline_eval_num_result_amended (S : TsBSpline) (u : ℚ)
    (hW : WellFormed S)
    (hlo : ts_bspline_domain_min S ≤ u)
    (hhi : u ≤ ts_bspline_domain_max S)
    (hmult : ts_knots_mult S.knots u ≤ ts_bspline_order S) :
    ∃ net, ts_bspline_eval S u = .ok net ∧
      1 ≤ ts_deboornet_num_result net ∧
      ts_deboornet_num_result net ≤ 2 ∧
      (ts_deboornet_num_result net = 2 ↔
        (ts_knots_mult S.knots u = ts_bspline_order S ∧
          ts_knots_equal u (ts_bspline_domain_min S) = false ∧
          ts_knots_equal u (ts_bspline_domain_max S) = false)) ∧
      (ts_knots_mult S.knots u = ts_bspline_order S →
        ts_knots_equal u (ts_bspline_domain_min S) = true →
        ts_deboornet_result net = [S.ctrlp.headD []] ∧
          ts_deboornet_num_insertions net = 0) ∧
      (ts_knots_mult S.knots u = ts_bspline_order S →
        ts_knots_equal u (ts_bspline_domain_min S) = false →
        ts_knots_equal u (ts_bspline_domain_max S) = true →
        ts_deboornet_result net = [S.ctrlp.getLastD []] ∧
          ts_deboornet_num_insertions net = 0) := by
  obtain ⟨hdim, hdims, hdeg, hklen, hchain, hcap⟩ := hW
  have hp : S.knots.Pairwise (· ≤ ·) := List.chain'_iff_pairwise.mp hchain
  have h1 : ¬ (u < ts_bspline_domain_min S) := not_lt.mpr hlo
  have h2 : ¬ (ts_bspline_domain_max S < u) := not_lt.mpr hhi
  have heval : ts_bspline_eval S u = ts_int_bspline_eval_woa S u := by
    simp only [ts_bspline_eval]
    rw [if_neg h1, if_neg h2]
  have hfind : ts_int_find_u S.knots u =
      ((S.knots.takeWhile (ts_int_cont u)).length,
        ((S.knots.takeWhile (ts_int_cont u)).filter
          (fun v => ts_knots_equal u v)).length) := by
    rw [ts_int_find_u, ts_int_find_u_go_eq]
    simp
  set b := (S.knots.takeWhile (ts_int_cont u)).length with hbdef
  set c := ((S.knots.takeWhile (ts_int_cont u)).filter
    (fun v => ts_knots_equal u v)).length with hcdef
  have hmeq : ts_knots_mult S.knots u = c := ts_int_scan_mult u S.knots hp
  have hb1 : S.deg < b :=
    ts_int_scan_lower u S.knots hp S.deg (by omega) hlo
  have hb2 : b ≤ S.ctrlp.length + c :=
    ts_int_scan_upper u S.knots hp S.ctrlp.length (by omega) hhi
  have hcle : c ≤ S.deg + 1 := by
    have := hmult
    rw [hmeq] at this
    exact this
  rw [heval]
  simp only [ts_int_bspline_eval_woa, hfind]
  have hnotgt : ¬ (S.deg + 1 < c) := by omega
  rw [if_neg hnotgt]
  by_cases hco : c = S.deg + 1
  · rw [if_pos hco]
    by_cases hl : ts_knots_equal u (ts_bspline_domain_min S) = true
    · rw [if_pos hl]
      refine ⟨_, rfl, ?_, ?_, ?_, ?_, ?_⟩
      · simp [ts_deboornet_num_result]
      · simp [ts_deboornet_num_result]
      · simp only [ts_deboornet_num_result]
        constructor
        · intro h
          simp at h
        · rintro ⟨-, hfalse, -⟩
          rw [hl] at hfalse
          cases hfalse
      · intro hm hlt
        constructor
        · simp [ts_deboornet_result]
        · rfl
      · intro hm hlf
        rw [hl] at hlf
        cases hlf
    · have hl2 : ts_knots_equal u (ts_bspline_domain_min S) = false := by
        simpa using hl
      rw [if_neg (by simp [hl2])]
      by_cases hh : ts_knots_equal u (ts_bspline_domain_max S) = true
      · rw [if_pos hh]
        refine ⟨_, rfl, ?_, ?_, ?_, ?_, ?_⟩
        · simp [ts_deboornet_num_result]
        · simp [ts_deboornet_num_result]
        · simp only [ts_deboornet_num_result]
          constructor
          · intro h
            simp at h
          · rintro ⟨-, -, hfalse⟩
            rw [hh] at hfalse
            cases hfalse
        · intro hm hlt
          rw [hl2] at hlt
          cases hlt
        · intro hm hlf hht
          constructor
          · simp [ts_deboornet_result]
          · rfl
      · have hh2 : ts_knots_equal u (ts_bspline_domain_max S) = false := by
          simpa using hh
        rw [if_neg (by simp [hh2])]
        refine ⟨_, rfl, ?_, ?_, ?_, ?_, ?_⟩
        · simp [ts_deboornet_num_result]
        · simp [ts_deboornet_num_result]
        · simp only [ts_deboornet_num_result]
          constructor
          · intro h
            exact ⟨by rw [hmeq, hco, ts_bspline_order], hl2, hh2⟩
          · intro h
            simp
        · intro hm hlt
          rw [hl2] at hlt
          cases hlt
        · intro hm hlf hht
          rw [hh2] at hht
          cases hht
  · rw [if_neg hco]
    have hclt : c ≤ S.deg := by omega
    obtain ⟨rest, hrev⟩ := ts_int_deboor_levels_reverse u S.knots (b - 1) S.deg
      ((S.ctrlp.drop (b - 1 - S.deg)).take (S.deg - c + 1)) (S.deg - c)
    have hinit : 1 ≤ ((S.ctrlp.drop (b - 1 - S.deg)).take
        (S.deg - c + 1)).length := by
      rw [List.length_take, List.length_drop]
      omega
    have hlen : 1 ≤ ((ts_int_deboor_levels u S.knots (b - 1) S.deg
        ((S.ctrlp.drop (b - 1 - S.deg)).take (S.deg - c + 1))
        (S.deg - c)).reverse.flatten).length := by
      rw [hrev, List.flatten_cons, List.length_append]
      omega
    refine ⟨_, rfl, ?_, ?_, ?_, ?_, ?_⟩
    · simp only [ts_deboornet_num_result]
      omega
    · simp only [ts_deboornet_num_result]
      omega
    · simp only [ts_deboornet_num_result]
      constructor
      · intro h
        exact absurd h (by omega)
      · rintro ⟨hm, -, -⟩
        rw [hmeq] at hm
        exact absurd hm hco
    · intro hm hlt
      rw [hmeq] at hm
      exact absurd hm hco
    · intro hm hlf hht
      rw [hmeq] at hm
      exact absurd hm hco

/-- C1 (counterexample to the original claim): a well-formed degree-0 spline
whose two distinct knots are `3/2 · TS_KNOT_EPSILON` apart admits the domain
parameter `u = 3/40000`, which is fuzzy-equal to both knots at once; its
fuzzy multiplicity `2` exceeds the order `1`, the case the evaluation
algorithm of the specification leaves undefined, so no net with
`1 ≤ num_result ≤ 2` is produced. -/
theorem ts_bspline_eval_num_result_counterexample :
    WellFormed ⟨0, 1, [[0]], [0, 3/20000]⟩ ∧
    ts_bspline_domain_min ⟨0, 1, [[0]], [0, 3/20000]⟩ ≤ 3/40000 ∧
    (3/40000 : ℚ) ≤ ts_bspline_domain_max ⟨0, 1, [[0]], [0, 3/20000]⟩ ∧
    ts_bspline_eval ⟨0, 1, [[0]], [0, 3/20000]⟩ (3/40000) =
      .error .TS_MULTIPLICITY := by
  refine ⟨?_, ?_, ?_, ?_⟩
  · norm_num [WellFormed, List.chain'_cons, List.count_cons]
  · norm_num [ts_bspline_domain_min]
  · norm_num [ts_bspline_domain_max]
  · norm_num [ts_bspline_eval, ts_int_bspline_eval_woa, ts_int_find_u,
      ts_int_find_u_go, ts_knots_equal, TS_KNOT_EPSILON,
      ts_bspline_domain_min, ts_bspline_domain_max, abs_lt]

/-- Witness for C1: the amended theorem applied to the clamped quadratic of
scenario S1 at the interior parameter `1/2`. -/
theorem ts_bspline_eval_num_result_witness :
    ∃ net, ts_bspline_eval ⟨2, 2, [[-1,0],[0,1],[1,0]], [0,0,0,1,1,1]⟩
        (1/2) = .ok net ∧
      1 ≤ ts_deboornet_num_result net ∧
      ts_deboornet_num_result net ≤ 2 ∧
      (ts_deboornet_num_result net = 2 ↔
        (ts_knots_mult (⟨2, 2, [[-1,0],[0,1],[1,0]],
            [0,0,0,1,1,1]⟩ : TsBSpline).knots (1/2) =
          ts_bspline_order ⟨2, 2, [[-1,0],[0,1],[1,0]], [0,0,0,1,1,1]⟩ ∧
          ts_knots_equal (1/2) (ts_bspline_domain_min
            ⟨2, 2, [[-1,0],[0,1],[1,0]], [0,0,0,1,1,1]⟩) = false ∧
          ts_knots_equal (1/2) (ts_bspline_domain_max
            ⟨2, 2, [[-1,0],[0,1],[1,0]], [0,0,0,1,1,1]⟩) = false)) ∧
      (ts_knots_mult (⟨2, 2, [[-1,0],[0,1],[1,0]],
          [0,0,0,1,1,1]⟩ : TsBSpline).knots (1/2) =
          ts_bspline_order ⟨2, 2, [[-1,0],[0,1],[1,0]], [0,0,0,1,1,1]⟩ →
        ts_knots_equal (1/2) (ts_bspline_domain_min
          ⟨2, 2, [[-1,0],[0,1],[1,0]], [0,0,0,1,1,1]⟩) = true →
        ts_deboornet_result net = [(⟨2, 2, [[-1,0],[0,1],[1,0]],
          [0,0,0,1,1,1]⟩ : TsBSpline).ctrlp.headD []] ∧
          ts_deboornet_num_insertions net = 0) ∧
      (ts_knots_mult (⟨2, 2, [[-1,0],[0,1],[1,0]],
          [0,0,0,1,1,1]⟩ : TsBSpline).knots (1/2) =
          ts_bspline_order ⟨2, 2, [[-1,0],[0,1],[1,0]], [0,0,0,1,1,1]⟩ →
        ts_knots_equal (1/2) (ts_bspline_domain_min
          ⟨2, 2, [[-1,0],[0,1],[1,0]], [0,0,0,1,1,1]⟩) = false →
        ts_knots_equal (1/2) (ts_bspline_domain_max
          ⟨2, 2, [[-1,0],[0,1],[1,0]], [0,0,0,1,1,1]⟩) = true →
        ts_deboornet_result net = [(⟨2, 2, [[-1,0],[0,1],[1,0]],
          [0,0,0,1,1,1]⟩ : TsBSpline).ctrlp.getLastD []] ∧
          ts_deboornet_num_insertions net = 0) :=
  ts_bspline_eval_num_result_amended
    ⟨2, 2, [[-1,0],[0,1],[1,0]], [0,0,0,1,1,1]⟩ (1/2)
    (by norm_num [WellFormed, List.chain'_cons, List.count_cons])
    (by norm_num [ts_bspline_domain_min])
    (by norm_num [ts_bspline_domain_max])
    (by norm_num [ts_knots_mult, ts_knots_equal, TS_KNOT_EPSILON,
      ts_bspline_order, List.filter_cons, abs_lt])

/-- Failing input for the knot-insertion invariance (C2): a well-formed
quadratic with an exact double knot at `1/2`. -/
def ts_ex_fuzzy_spline : TsBSpline :=
  ⟨2, 1, [[0],[100],[200],[300],[400]], [0,0,0,1/2,1/2,1,1,1]⟩

/-- Result of inserting `u = 10001/20000` — a knot that is fuzzy-equal to
the existing double knot `1/2` but distinct from it — once into
`ts_ex_fuzzy_spline`: the fuzzy multiplicity `s = 2` makes the Boehm blend
range empty, so the control point `[200]` is merely duplicated. -/
def ts_ex_fuzzy_refined : TsBSpline :=
  ⟨2, 1, [[0],[100],[200],[200],[300],[400]],
    [0,0,0,1/2,1/2,10001/20000,1,1,1]⟩

/-- C2 (code bug, evaluated at the failing input): `u = 10001/20000` is an
admissible insertion knot for `ts_ex_fuzzy_spline` — it lies in the domain
and its fuzzy multiplicity after one insertion equals the order — yet the
spline produced by `insert_knot(S, u, 1)` does not evaluate to the same
point as `S` everywhere: at `v = 3/4` the original evaluates to `[300]`,
the refined spline to `[29993250400/99980001] ≈ [299.9925]`, and the two
results are farther apart than `TS_CONTROL_POINT_EPSILON`.  The fuzzy knot
comparator makes the Boehm identity inapplicable when the inserted knot is
within `TS_KNOT_EPSILON` of an existing knot without being equal to it. -/
theorem ts_bspline_insert_knot_invariance_code_bug :
    WellFormed ts_ex_fuzzy_spline ∧
    ts_bspline_domain_min ts_ex_fuzzy_spline ≤ 10001/20000 ∧
    (10001/20000 : ℚ) ≤ ts_bspline_domain_max ts_ex_fuzzy_spline ∧
    ts_knots_mult ts_ex_fuzzy_spline.knots (10001/20000) + 1 =
      ts_bspline_order ts_ex_fuzzy_spline ∧
    ts_bspline_insert_knot ts_ex_fuzzy_spline (10001/20000) 1 =
      .ok (ts_ex_fuzzy_refined, 5) ∧
    (ts_bspline_eval ts_ex_fuzzy_spline (3/4)).toOption.map
      (fun net => ts_deboornet_result net) = some [[300]] ∧
    (ts_bspline_eval ts_ex_fuzzy_refined (3/4)).toOption.map
      (fun net => ts_deboornet_result net) =
      some [[29993250400/99980001]] ∧
    ts_distance_le [(300:ℚ)] [29993250400/99980001]
      TS_CONTROL_POINT_EPSILON = false := by
  refine ⟨?_, ?_, ?_, ?_, ?_, ?_, ?_, ?_⟩
  · norm_num [WellFormed, ts_ex_fuzzy_spline, List.chain'_cons,
      List.count_cons]
  · norm_num [ts_bspline_domain_min, ts_ex_fuzzy_spline]
  · norm_num [ts_bspline_domain_max, ts_ex_fuzzy_spline]
  · norm_num [ts_knots_mult, ts_ex_fuzzy_spline, ts_knots_equal,
      TS_KNOT_EPSILON, List.filter_cons, abs_lt, ts_bspline_order]
  · norm_num [ts_bspline_insert_knot, ts_ex_fuzzy_spline,
      ts_ex_fuzzy_refined, ts_bspline_domain_min, ts_bspline_domain_max,
      ts_knots_equal, TS_KNOT_EPSILON, abs_lt,
      ts_int_bspline_insert_knot_iter, ts_int_bspline_insert_knot_one,
      ts_int_find_u, ts_int_find_u_go, ts_int_affine, List.range_succ,
      List.getD_cons_zero, List.getD_cons_succ]
  · norm_num [ts_bspline_eval, ts_ex_fuzzy_spline, ts_int_bspline_eval_woa,
      ts_bspline_domain_min, ts_bspline_domain_max, ts_int_find_u,
      ts_int_find_u_go, ts_knots_equal, TS_KNOT_EPSILON, abs_lt,
      ts_int_deboor_levels, ts_int_deboor_step, ts_int_affine,
      ts_deboornet_result, List.range_succ, List.getD_cons_zero,
      List.getD_cons_succ, Except.toOption]
  · norm_num [ts_bspline_eval, ts_ex_fuzzy_refined, ts_int_bspline_eval_woa,
      ts_bspline_domain_min, ts_bspline_domain_max, ts_int_find_u,
      ts_int_find_u_go, ts_knots_equal, TS_KNOT_EPSILON, abs_lt,
      ts_int_deboor_levels, ts_int_deboor_step, ts_int_affine,
      ts_deboornet_result, List.range_succ, List.getD_cons_zero,
      List.getD_cons_succ, Except.toOption]
  · norm_num [ts_distance_le, ts_distance_sq, TS_CONTROL_POINT_EPSILON]

/-- C8: aliased `ts_bspline_copy(&S, &S)` and `ts_bspline_move(&S, &S)`
leave the handle store completely unchanged — copy returns `TS_SUCCESS`
without touching anything and move does not empty the handle; a move
empties the source handle (sets it to `NULL`) exactly when source and
destination are distinct, in which case the destination receives the
source data. -/
theorem ts_bspline_copy_move_aliased (store : ℕ → Option TsBSpline)
    (src dest : ℕ) (hne : src ≠ dest) :
    (∀ h, ts_bspline_copy h h store = (store, .TS_SUCCESS)) ∧
    (∀ h, ts_bspline_move h h store = store) ∧
    ts_bspline_move src dest store src = none ∧
    ts_bspline_move src dest store dest = store src := by
  refine ⟨fun h => ?_, fun h => ?_, ?_, ?_⟩
  · simp [ts_bspline_copy]
  · simp [ts_bspline_move]
  · simp [ts_bspline_move, hne, Function.update]
  · simp [ts_bspline_move, hne, Function.update, Ne.symm hne]

/-- Witness for C8 at a concrete store and the distinct handles `0`, `1`. -/
theorem ts_bspline_copy_move_aliased_witness :
    (∀ h, ts_bspline_copy h h (fun _ => none) = (fun _ => none, .TS_SUCCESS)) ∧
    (∀ h, ts_bspline_move h h (fun _ => (none : Option TsBSpline)) =
      fun _ => none) ∧
    ts_bspline_move 0 1 (fun _ => (none : Option TsBSpline)) 0 = none ∧
    ts_bspline_move 0 1 (fun _ => (none : Option TsBSpline)) 1 =
      (fun _ => (none : Option TsBSpline)) 0 :=
  ts_bspline_copy_move_aliased (fun _ => none) 0 1 (by norm_num)

theorem ts_int_bspline_derive_one_neg_ok (S : TsBSpline) (eps : ℚ)
    (heps : eps < 0) : ∃ D, ts_int_bspline_derive_one S eps = .ok D := by
  unfold ts_int_bspline_derive_one
  by_cases hdeg : S.deg = 0
  · rw [if_pos hdeg]
    exact ⟨_, rfl⟩
  · rw [if_neg hdeg, if_neg (by rintro ⟨h0, -⟩; linarith)]
    exact ⟨_, rfl⟩

theorem ts_bspline_derive_neg_ok (S : TsBSpline) (eps : ℚ)
    (heps : eps < 0) (n : ℕ) : ∃ D, ts_bspline_derive S n eps = .ok D := by
  induction n with
  | zero => exact ⟨S, rfl⟩
  | succ m ih =>
      obtain ⟨D, hD⟩ := ih
      obtain ⟨E, hE⟩ := ts_int_bspline_derive_one_neg_ok D eps heps
      refine ⟨E, ?_⟩
      show ts_bspline_derive S m eps >>= (ts_int_bspline_derive_one · eps) =
        Except.ok E
      rw [hD]
      exact hE

theorem ts_int_allM_except (g : ℕ → Except TsError Bool) (P : ℕ → Prop)
    (hg : ∀ i, ∃ b, g i = .ok b ∧ (b = true ↔ P i)) (l : List ℕ) :
    ∃ b, l.allM g = .ok b ∧ (b = true ↔ ∀ i ∈ l, P i) := by
  induction l with
  | nil => exact ⟨true, rfl, by simp⟩
  | cons x xs ih =>
      obtain ⟨bx, hbx, hiffx⟩ := hg x
      obtain ⟨b, hb, hiff⟩ := ih
      match hbxv : bx with
      | true =>
          refine ⟨b, ?_, ?_⟩
          · show (x :: xs).allM g = Except.ok b
            rw [List.allM, hbx]
            exact hb
          · rw [hiff]
            constructor
            · intro h i hi
              rcases List.mem_cons.mp hi with rfl | hmem
              · exact hiffx.mp rfl
              · exact h i hmem
            · intro h i hi
              exact h i (List.mem_cons_of_mem x hi)
      | false =>
          refine ⟨false, ?_, ?_⟩
          · show (x :: xs).allM g = Except.ok false
            rw [List.allM, hbx]
            rfl
          · simp only [Bool.false_eq_true, false_iff]
            intro hall
            have := hall x (List.mem_cons_self x xs)
            rw [← hiffx] at this
            cases this

/-- C5: `ts_bspline_is_closed(spline, eps)` succeeds and returns true if and
only if, for every derivative order `0 … deg - 1` inclusive, the Euclidean
distance between the first and the last control point of the derivative
spline of that order is at most `eps` (the distance comparison
`ts_distance_le` is the exact square-based embedding of
`ts_distance(first, last, dim) <= eps`). -/
theorem ts_bspline_is_closed_iff (S : TsBSpline) (eps : ℚ) :
    ∃ closed, ts_bspline_is_closed S eps = .ok closed ∧
      (closed = true ↔ ∀ i, i < S.deg → ∀ D,
        ts_bspline_derive S i (-1) = .ok D →
        ts_distance_le (D.ctrlp.headD []) (D.ctrlp.getLastD []) eps =
          true) := by
  have hg : ∀ i, ∃ b,
      (do
        let D ← ts_bspline_derive S i (-1)
        pure (ts_distance_le (D.ctrlp.headD []) (D.ctrlp.getLastD []) eps)
        : Except TsError Bool) = .ok b ∧
      (b = true ↔ ∀ D, ts_bspline_derive S i (-1) = .ok D →
        ts_distance_le (D.ctrlp.headD []) (D.ctrlp.getLastD []) eps =
          true) := by
    intro i
    obtain ⟨D, hD⟩ := ts_bspline_derive_neg_ok S (-1) (by norm_num) i
    refine ⟨ts_distance_le (D.ctrlp.headD []) (D.ctrlp.getLastD []) eps,
      ?_, ?_⟩
    · rw [show (do
        let D ← ts_bspline_derive S i (-1)
        pure (ts_distance_le (D.ctrlp.headD []) (D.ctrlp.getLastD []) eps)
        : Except TsError Bool) = ts_bspline_derive S i (-1) >>=
          (fun D => pure (ts_distance_le (D.ctrlp.headD [])
            (D.ctrlp.getLastD []) eps)) from rfl, hD]
      rfl
    · constructor
      · intro hb E hE
        rw [hD] at hE
        cases hE
        exact hb
      · intro hall
        exact hall D hD
  obtain ⟨b, hb, hiff⟩ := ts_int_allM_except _ _ hg (List.range S.deg)
  refine ⟨b, hb, ?_⟩
  rw [hiff]
  constructor
  · intro h i hi
    exact h i (List.mem_range.mpr hi)
  · intro h i hi
    exact h i (List.mem_range.mp hi)

/-- Position form of a filter count: the number of matching elements equals
the number of indices whose element matches. -/
theorem ts_int_filter_length_pos (p : ℚ → Bool) (d : ℚ) :
    ∀ l : List ℚ, (l.filter p).length =
      ((List.range l.length).filter (fun j => p (l.getD j d))).length
  | [] => rfl
  | a :: l => by
    have ih := ts_int_filter_length_pos p d l
    simp only [List.length_cons, List.range_succ_eq_map, List.filter_cons,
      List.getD_cons_zero, List.filter_map, List.getD_cons_succ,
      Function.comp_def, List.getD_eq_getElem?_getD,
      List.getElem?_cons_succ]
    simp only [List.getD_eq_getElem?_getD] at ih
    by_cases hpa : p a = true
    · simp [hpa, ih]
    · simp [hpa, ih]

/-- Position form of the fuzzy multiplicity. -/
theorem ts_int_knots_mult_pos (knots : List ℚ) (u : ℚ) :
    ts_knots_mult knots u = ((List.range knots.length).filter
      (fun j => ts_knots_equal u (knots.getD j 0))).length := by
  rw [ts_knots_mult, ts_int_filter_length_pos _ 0]

theorem ts_int_knots_equal_comm (x y : ℚ) :
    ts_knots_equal x y = ts_knots_equal y x := by
  simp [ts_knots_equal, abs_sub_comm]

theorem ts_int_knots_equal_false_le (x y : ℚ) (hxy : x ≤ y)
    (h : ts_knots_equal x y = false) : TS_KNOT_EPSILON ≤ y - x := by
  simp only [ts_knots_equal, decide_eq_false_iff_not, not_lt] at h
  calc TS_KNOT_EPSILON ≤ |x - y| := h
  _ = y - x := by rw [abs_sub_comm, abs_of_nonneg (by linarith)]

theorem ts_int_knots_equal_true_lt (x y : ℚ)
    (h : ts_knots_equal x y = true) : |x - y| < TS_KNOT_EPSILON := by
  simpa [ts_knots_equal] using h

/-- Membership characterisation of the discontinuity list. -/
theorem ts_int_mem_discontinuities (S : TsBSpline) (i : ℕ) :
    i ∈ ts_int_discontinuities S ↔
      i < S.knots.length ∧
      ts_knots_mult S.knots (S.knots.getD i 0) = S.deg + 1 ∧
      ts_knots_equal (S.knots.getD i 0) (ts_bspline_domain_min S) = false ∧
      ts_knots_equal (S.knots.getD i 0) (ts_bspline_domain_max S) = false ∧
      (i = 0 ∨ ts_knots_equal (S.knots.getD (i - 1) 0)
        (S.knots.getD i 0) = false) := by
  unfold ts_int_discontinuities
  rw [List.mem_filter, List.mem_range]
  simp [Bool.and_eq_true, Bool.or_eq_true, Bool.not_eq_true',
    decide_eq_true_eq, and_assoc]

/-- Every discontinuity of a well-formed spline lies strictly between `deg`
and `n_ctrl`, so both of its flanking control points are genuine entries of
the control point list: a knot fuzzy-distinct from a domain boundary cannot
reach full multiplicity `deg + 1` with all its fuzzy copies crammed outside
the domain-interior index range. -/
theorem ts_int_disc_range (S : TsBSpline) (hwf : WellFormed S)
    (i : ℕ) (hi : i ∈ ts_int_discontinuities S) :
    S.deg < i ∧ i < S.ctrlp.length := by
  obtain ⟨hdim, hdims, horder, hlen, hchain, hcount⟩ := hwf
  rw [ts_int_mem_discontinuities] at hi
  obtain ⟨hilen, hmult, hmin, hmax, hrun⟩ := hi
  have hdlt : S.deg < S.knots.length := by omega
  have hnclt : S.ctrlp.length < S.knots.length := by omega
  rw [ts_int_knots_mult_pos] at hmult
  rw [ts_bspline_domain_min] at hmin
  rw [ts_bspline_domain_max] at hmax
  have hnodup : ((List.range S.knots.length).filter
      (fun j => ts_knots_equal (S.knots.getD i 0)
        (S.knots.getD j 0))).Nodup :=
    (List.nodup_range _).filter _
  constructor
  · by_contra hle
    push_neg at hle
    have hne : i ≠ S.deg := by
      rintro rfl
      norm_num [ts_knots_equal, TS_KNOT_EPSILON] at hmin
    have hilt : i < S.deg := lt_of_le_of_ne hle hne
    have hmono : S.knots.getD i 0 ≤ S.knots.getD S.deg 0 :=
      ts_int_getD_mono _ hchain (le_of_lt hilt) hdlt
    have hgap : TS_KNOT_EPSILON ≤
        S.knots.getD S.deg 0 - S.knots.getD i 0 :=
      ts_int_knots_equal_false_le _ _ hmono hmin
    have hsub : ∀ j ∈ (List.range S.knots.length).filter
        (fun j => ts_knots_equal (S.knots.getD i 0) (S.knots.getD j 0)),
        j ∈ List.range S.deg := by
      intro j hj
      rw [List.mem_filter, List.mem_range] at hj
      obtain ⟨hjlen, hjf⟩ := hj
      rw [List.mem_range]
      by_contra hge
      push_neg at hge
      have hjmono : S.knots.getD S.deg 0 ≤ S.knots.getD j 0 :=
        ts_int_getD_mono _ hchain hge hjlen
      have hjlt := ts_int_knots_equal_true_lt _ _ hjf
      rw [abs_lt] at hjlt
      linarith [hjlt.1]
    have hle2 := (List.subperm_of_subset hnodup hsub).length_le
    rw [List.length_range] at hle2
    omega
  · by_contra hge
    push_neg at hge
    have hne : i ≠ S.ctrlp.length := by
      rintro rfl
      norm_num [ts_knots_equal, TS_KNOT_EPSILON] at hmax
    have hgt : S.ctrlp.length < i := lt_of_le_of_ne hge (Ne.symm hne)
    have hmono : S.knots.getD S.ctrlp.length 0 ≤ S.knots.getD i 0 :=
      ts_int_getD_mono _ hchain (le_of_lt hgt) hilen
    have hgap : TS_KNOT_EPSILON ≤
        S.knots.getD i 0 - S.knots.getD S.ctrlp.length 0 :=
      ts_int_knots_equal_false_le _ _ hmono
        (by rw [ts_int_knots_equal_comm]; exact hmax)
    have hsub : ∀ j ∈ (List.range S.knots.length).filter
        (fun j => ts_knots_equal (S.knots.getD i 0) (S.knots.getD j 0)),
        j ∈ (List.range S.deg).map (fun t => S.ctrlp.length + 1 + t) := by
      intro j hj
      rw [List.mem_filter, List.mem_range] at hj
      obtain ⟨hjlen, hjf⟩ := hj
      have hjlt := ts_int_knots_equal_true_lt _ _ hjf
      rw [abs_lt] at hjlt
      have hjgt : S.ctrlp.length < j := by
        by_contra hjle
        push_neg at hjle
        have : S.knots.getD j 0 ≤ S.knots.getD S.ctrlp.length 0 :=
          ts_int_getD_mono _ hchain hjle hnclt
        linarith [hjlt.2]
      rw [List.mem_map]
      exact ⟨j - (S.ctrlp.length + 1),
        by rw [List.mem_range]; omega, by omega⟩
    have hle2 := (List.subperm_of_subset hnodup hsub).length_le
    rw [List.length_map, List.length_range] at hle2
    omega

/-- For a well-formed spline of degree at least one, the index right before
a discontinuity is never itself a discontinuity: the run-start condition on
both indices would confine the fuzzy copies of `knots[i - 1]` to the single
position `i - 1`, contradicting full multiplicity `deg + 1 ≥ 2`.  Hence the
merge of the derivation, which drops the control points at discontinuity
indices, always keeps the first flanking point `ctrlp[i - 1]`. -/
theorem ts_int_disc_pred_not_mem (S : TsBSpline) (hwf : WellFormed S)
    (hdeg : 1 ≤ S.deg) (i : ℕ) (hi : i ∈ ts_int_discontinuities S) :
    i - 1 ∉ ts_int_discontinuities S := by
  intro hi1
  have hr := ts_int_disc_range S hwf i hi
  have hr1 := ts_int_disc_range S hwf (i - 1) hi1
  obtain ⟨hdim, hdims, horder, hlen, hchain, hcount⟩ := hwf
  rw [ts_int_mem_discontinuities] at hi hi1
  obtain ⟨hilen, hmult, hmin, hmax, hrun⟩ := hi
  obtain ⟨h1len, h1mult, h1min, h1max, h1run⟩ := hi1
  have hrunf : ts_knots_equal (S.knots.getD (i - 1) 0)
      (S.knots.getD i 0) = false := by
    rcases hrun with h0 | h
    · omega
    · exact h
  have h1runf : ts_knots_equal (S.knots.getD (i - 2) 0)
      (S.knots.getD (i - 1) 0) = false := by
    rcases h1run with h0 | h
    · omega
    · have he : i - 1 - 1 = i - 2 := by omega
      rw [he] at h
      exact h
  rw [ts_int_knots_mult_pos] at h1mult
  have hmonoR : S.knots.getD (i - 1) 0 ≤ S.knots.getD i 0 :=
    ts_int_getD_mono _ hchain (by omega) hilen
  have hgapR : TS_KNOT_EPSILON ≤
      S.knots.getD i 0 - S.knots.getD (i - 1) 0 :=
    ts_int_knots_equal_false_le _ _ hmonoR hrunf
  have hmonoL : S.knots.getD (i - 2) 0 ≤ S.knots.getD (i - 1) 0 :=
    ts_int_getD_mono _ hchain (by omega) h1len
  have hgapL : TS_KNOT_EPSILON ≤
      S.knots.getD (i - 1) 0 - S.knots.getD (i - 2) 0 :=
    ts_int_knots_equal_false_le _ _ hmonoL h1runf
  have hsub : ∀ j ∈ (List.range S.knots.length).filter
      (fun j => ts_knots_equal (S.knots.getD (i - 1) 0)
        (S.knots.getD j 0)),
      j ∈ [i - 1] := by
    intro j hj
    rw [List.mem_filter, List.mem_range] at hj
    obtain ⟨hjlen, hjf⟩ := hj
    have hjlt := ts_int_knots_equal_true_lt _ _ hjf
    rw [abs_lt] at hjlt
    rw [List.mem_singleton]
    by_contra hne
    rcases Nat.lt_or_ge j (i - 1) with hlt | hge
    · have : S.knots.getD j 0 ≤ S.knots.getD (i - 2) 0 :=
        ts_int_getD_mono _ hchain (by omega) (by omega)
      linarith [hjlt.2]
    · have : S.knots.getD i 0 ≤ S.knots.getD j 0 :=
        ts_int_getD_mono _ hchain (by omega) hjlen
      linarith [hjlt.1]
  have hle2 := (List.subperm_of_subset
    ((List.nodup_range S.knots.length).filter _) hsub).length_le
  rw [List.length_singleton] at hle2
  omega

theorem ts_int_remove_idxs_go (idxs : List ℕ) :
    ∀ (l : List (List ℚ)) (k : ℕ),
      ((List.enumFrom k l).filter (fun p => decide (p.1 ∉ idxs))).map
        (fun p => p.2) =
      ((List.range l.length).filter (fun j => decide (k + j ∉ idxs))).map
        (fun j => l.getD j [])
  | [], _ => rfl
  | a :: l, k => by
    have ih := ts_int_remove_idxs_go idxs l (k + 1)
    have harg : (fun j => decide (k + (j + 1) ∉ idxs)) =
        (fun j => decide (k + 1 + j ∉ idxs)) := by
      funext j
      have he : k + (j + 1) = k + 1 + j := by omega
      rw [he]
    by_cases hk : k ∈ idxs
    · simp only [List.enumFrom_cons, List.filter_cons, List.length_cons,
        List.range_succ_eq_map, List.filter_map, Function.comp_def,
        Nat.add_zero, Nat.succ_eq_add_one, List.map_map,
        List.getD_cons_succ, List.getD_cons_zero, hk, not_true_eq_false,
        decide_False, Bool.false_eq_true, if_false]
      rw [harg]
      exact ih
    · simp only [List.enumFrom_cons, List.filter_cons, List.length_cons,
        List.range_succ_eq_map, List.filter_map, Function.comp_def,
        Nat.add_zero, Nat.succ_eq_add_one, List.map_map,
        List.getD_cons_succ, List.getD_cons_zero, hk, not_false_eq_true,
        decide_True, if_true, List.map_cons]
      rw [harg]
      rw [ih]

/-- The merge `ts_int_remove_idxs` keeps, in order, exactly the control
points whose index is not listed: for a discontinuity at index `i` the
point dropped is `ctrlp[i]`, the second flanking point, while `ctrlp[i-1]`,
the first flanking point, survives whenever `i - 1` is not itself
listed. -/
theorem ts_int_remove_idxs_eq (l : List (List ℚ)) (idxs : List ℕ) :
    ts_int_remove_idxs l idxs =
      ((List.range l.length).filter (fun j => decide (j ∉ idxs))).map
        (fun j => l.getD j []) := by
  have h := ts_int_remove_idxs_go idxs l 0
  simp only [Nat.zero_add] at h
  unfold ts_int_remove_idxs List.enum
  exact h

/-- C7 (amended): for a spline of degree at least one, a single derivation
(`n = 1`) fails with `TS_UNDERIVABLE` exactly when `eps ≥ 0` and the spline
has an internal knot of full multiplicity (a member of
`ts_int_discontinuities`) whose two flanking control points are more than
`eps` apart; for every negative epsilon the discontinuity check is
suppressed, so `TS_UNDERIVABLE` is never raised for any number of
derivations; and whenever the check passes — for `eps < 0` in particular —
the healing merge takes the first flanking point: on a well-formed spline
the merge keeps, in order, exactly the control points at
non-discontinuity indices, every discontinuity index `i` lies strictly
between `deg` and `n_ctrl` (both flanking points are genuine), and `i - 1`
is never itself a discontinuity, so the first flanking point
`ctrlp[i - 1]` is kept and the second flanking point `ctrlp[i]` is the one
dropped.  The amendment with respect to the original claim: the
equivalence is stated per single derivation and for positive degree — a
zeroth derivative (`n = 0`) is a plain copy and a degree-0 spline derives
to the zero point, both without any discontinuity check (see the
counterexample). -/
theorem ts_bspline_derive_underivable_amended (S : TsBSpline) (eps : ℚ)
    (hdeg : 1 ≤ S.deg) :
    (ts_bspline_derive S 1 eps = .error .TS_UNDERIVABLE ↔
      (0 ≤ eps ∧ ∃ i ∈ ts_int_discontinuities S,
        ts_distance_le (S.ctrlp.getD (i - 1) []) (S.ctrlp.getD i [])
          eps = false)) ∧
    (∀ e, e < 0 → ∀ n, ∃ D, ts_bspline_derive S n e = .ok D) ∧
    (WellFormed S →
      ts_int_remove_idxs S.ctrlp (ts_int_discontinuities S) =
        ((List.range S.ctrlp.length).filter
          (fun j => decide (j ∉ ts_int_discontinuities S))).map
          (fun j => S.ctrlp.getD j []) ∧
      ∀ i ∈ ts_int_discontinuities S,
        S.deg < i ∧ i < S.ctrlp.length ∧
          i - 1 ∉ ts_int_discontinuities S) := by
  refine ⟨?_, ?_, ?_⟩
  · have h1 : ts_bspline_derive S 1 eps = ts_int_bspline_derive_one S eps :=
      rfl
    rw [h1]
    simp only [ts_int_bspline_derive_one]
    rw [if_neg (by omega)]
    by_cases hC : 0 ≤ eps ∧ (ts_int_discontinuities S).any
        (fun i => !ts_distance_le (S.ctrlp.getD (i - 1) [])
          (S.ctrlp.getD i []) eps)
    · rw [if_pos hC]
      constructor
      · intro _
        refine ⟨hC.1, ?_⟩
        obtain ⟨i, hmem, hp⟩ := List.any_eq_true.mp hC.2
        exact ⟨i, hmem, by simpa using hp⟩
      · intro _
        rfl
    · rw [if_neg hC]
      constructor
      · intro h
        cases h
      · rintro ⟨he, i, hmem, hdist⟩
        exact absurd ⟨he, List.any_eq_true.mpr
          ⟨i, hmem, by simp only [Bool.not_eq_true']; exact hdist⟩⟩ hC
  · intro e he n
    exact ts_bspline_derive_neg_ok S e he n
  · intro hwf
    refine ⟨ts_int_remove_idxs_eq S.ctrlp (ts_int_discontinuities S), ?_⟩
    intro i hi
    exact ⟨(ts_int_disc_range S hwf i hi).1,
      (ts_int_disc_range S hwf i hi).2,
      ts_int_disc_pred_not_mem S hwf hdeg i hi⟩

/-- C7 (counterexample to the original claim): first, the zeroth derivative
(`n = 0`) of a spline with a genuine gap — an internal knot of full
multiplicity with flanking control points `[0]` and `[1]` at distance
`1 > 0` — is a plain copy that succeeds although the claim requires
`TS_UNDERIVABLE` whenever `eps ≥ 0` and such a knot exists; second, a
degree-0 spline with an internal knot (its multiplicity `1` equals the
order) and distant flanking points derives to the zero point, again
without failure. -/
theorem ts_bspline_derive_underivable_counterexample :
    (WellFormed ⟨1, 1, [[0],[0],[1],[2]], [0,0,1/2,1/2,1,1]⟩ ∧
      2 ∈ ts_int_discontinuities ⟨1, 1, [[0],[0],[1],[2]],
        [0,0,1/2,1/2,1,1]⟩ ∧
      ts_distance_le [(0:ℚ)] [1] 0 = false ∧
      ts_bspline_derive ⟨1, 1, [[0],[0],[1],[2]], [0,0,1/2,1/2,1,1]⟩ 0 0 =
        .ok ⟨1, 1, [[0],[0],[1],[2]], [0,0,1/2,1/2,1,1]⟩) ∧
    (WellFormed ⟨0, 1, [[5],[9]], [0, 3/10, 1]⟩ ∧
      1 ∈ ts_int_discontinuities ⟨0, 1, [[5],[9]], [0, 3/10, 1]⟩ ∧
      ts_distance_le [(5:ℚ)] [9] 0 = false ∧
      ts_bspline_derive ⟨0, 1, [[5],[9]], [0, 3/10, 1]⟩ 1 0 =
        .ok ⟨0, 1, [[0]], [0, 1]⟩) := by
  refine ⟨⟨?_, ?_, ?_, rfl⟩, ?_, ?_, ?_, ?_⟩
  · norm_num [WellFormed, List.chain'_cons, List.count_cons]
  · norm_num [ts_int_discontinuities, ts_knots_mult, ts_knots_equal,
      TS_KNOT_EPSILON, ts_bspline_domain_min, ts_bspline_domain_max,
      List.range_succ, List.filter_cons, abs_lt, List.getD_cons_zero,
      List.getD_cons_succ]
  · norm_num [ts_distance_le, ts_distance_sq]
  · norm_num [WellFormed, List.chain'_cons, List.count_cons]
  · norm_num [ts_int_discontinuities, ts_knots_mult, ts_knots_equal,
      TS_KNOT_EPSILON, ts_bspline_domain_min, ts_bspline_domain_max,
      List.range_succ, List.filter_cons, abs_lt, List.getD_cons_zero,
      List.getD_cons_succ]
  · norm_num [ts_distance_le, ts_distance_sq]
  · show ts_int_bspline_derive_one ⟨0, 1, [[5],[9]], [0, 3/10, 1]⟩ 0 =
      .ok ⟨0, 1, [[0]], [0, 1]⟩
    norm_num [ts_int_bspline_derive_one, ts_bspline_domain_min,
      ts_bspline_domain_max, List.replicate]

/-- Witness for C7: the amended theorem applied to the discontinuous
degree-1 spline of the counterexample with `eps = 0`. -/
theorem ts_bspline_derive_underivable_witness :
    (ts_bspline_derive ⟨1, 1, [[0],[0],[1],[2]], [0,0,1/2,1/2,1,1]⟩ 1 0 =
      .error .TS_UNDERIVABLE ↔
      ((0:ℚ) ≤ 0 ∧ ∃ i ∈ ts_int_discontinuities ⟨1, 1, [[0],[0],[1],[2]],
          [0,0,1/2,1/2,1,1]⟩,
        ts_distance_le ((⟨1, 1, [[0],[0],[1],[2]],
            [0,0,1/2,1/2,1,1]⟩ : TsBSpline).ctrlp.getD (i - 1) [])
          ((⟨1, 1, [[0],[0],[1],[2]],
            [0,0,1/2,1/2,1,1]⟩ : TsBSpline).ctrlp.getD i [])
          0 = false)) ∧
    (∀ e, e < 0 → ∀ n, ∃ D, ts_bspline_derive
      ⟨1, 1, [[0],[0],[1],[2]], [0,0,1/2,1/2,1,1]⟩ n e = .ok D) ∧
    (WellFormed ⟨1, 1, [[0],[0],[1],[2]], [0,0,1/2,1/2,1,1]⟩ →
      ts_int_remove_idxs
          (⟨1, 1, [[0],[0],[1],[2]],
            [0,0,1/2,1/2,1,1]⟩ : TsBSpline).ctrlp
          (ts_int_discontinuities ⟨1, 1, [[0],[0],[1],[2]],
            [0,0,1/2,1/2,1,1]⟩) =
        ((List.range (⟨1, 1, [[0],[0],[1],[2]],
            [0,0,1/2,1/2,1,1]⟩ : TsBSpline).ctrlp.length).filter
          (fun j => decide (j ∉ ts_int_discontinuities
            ⟨1, 1, [[0],[0],[1],[2]], [0,0,1/2,1/2,1,1]⟩))).map
          (fun j => (⟨1, 1, [[0],[0],[1],[2]],
            [0,0,1/2,1/2,1,1]⟩ : TsBSpline).ctrlp.getD j []) ∧
      ∀ i ∈ ts_int_discontinuities ⟨1, 1, [[0],[0],[1],[2]],
          [0,0,1/2,1/2,1,1]⟩,
        (⟨1, 1, [[0],[0],[1],[2]],
          [0,0,1/2,1/2,1,1]⟩ : TsBSpline).deg < i ∧
        i < (⟨1, 1, [[0],[0],[1],[2]],
          [0,0,1/2,1/2,1,1]⟩ : TsBSpline).ctrlp.length ∧
        i - 1 ∉ ts_int_discontinuities ⟨1, 1, [[0],[0],[1],[2]],
          [0,0,1/2,1/2,1,1]⟩) :=
  ts_bspline_derive_underivable_amended
    ⟨1, 1, [[0],[0],[1],[2]], [0,0,1/2,1/2,1,1]⟩ 0 (by norm_num)

/-- C6 (amended): for every positive dimension, degree and
`n_ctrl > degree`, creating a new spline in Bezier mode succeeds exactly
when the number of control points is divisible by the order `deg + 1`
(the condition documented in the header as
`num_control_points % degree + 1 != 0` for `TS_NUM_KNOTS`), and fails with
`TS_NUM_KNOTS` otherwise; on success the knot vector consists of
`n_ctrl / (deg + 1) + 1` groups of `order` equal knots — both endpoints and
every interior knot repeated `order` times — whose values are uniformly
spaced, partitioning the spline into `n_ctrl / (deg + 1)` Bezier segments.
The amendment with respect to the original claim: the admission condition
is `n_ctrl mod (deg + 1) == 0` with `n_ctrl / (deg + 1)` segments, not
`(n_ctrl - 1) mod deg == 0` with `(n_ctrl - 1) / deg` segments — the
original condition is incompatible with the knot-count invariant
`|knots| = n_ctrl + deg + 1` (see the counterexample). -/
theorem ts_bspline_new_beziers_amended (num dim deg : ℕ) (hdim : 1 ≤ dim)
    (hdeg : deg < num) :
    (num % (deg + 1) = 0 →
      ts_bspline_new num dim deg .TS_BEZIERS =
        .ok ⟨deg, dim, List.replicate num (List.replicate dim 0),
          ts_knots_beziers deg (num + deg + 1)⟩ ∧
      ts_knots_beziers deg (num + deg + 1) =
        (List.range (num / (deg + 1) + 1)).flatMap
          (fun g => List.replicate (deg + 1)
            ((g : ℚ) / ((num / (deg + 1) : ℕ) : ℚ)))) ∧
    (num % (deg + 1) ≠ 0 →
      ts_bspline_new num dim deg .TS_BEZIERS = .error .TS_NUM_KNOTS) := by
  have hgroups : (num + deg + 1) / (deg + 1) = num / (deg + 1) + 1 := by
    have : num + deg + 1 = num + (deg + 1) := by omega
    rw [this, Nat.add_div_right _ (by omega)]
  constructor
  · intro hmod
    constructor
    · unfold ts_bspline_new
      rw [if_neg (by omega), if_neg (by omega)]
      simp only [hmod]
      rfl
    · unfold ts_knots_beziers
      rw [hgroups]
      congr 1
      funext g
      congr 1
      rw [TS_DOMAIN_DEFAULT_MIN, TS_DOMAIN_DEFAULT_MAX]
      push_cast
      ring
  · intro hmod
    unfold ts_bspline_new
    rw [if_neg (by omega), if_neg (by omega)]
    simp only [hmod]
    rw [if_pos (by omega)]

/-- C6 (counterexample to the original claim): with `deg = 1` and
`n_ctrl = 3` the original admission condition `(n_ctrl - 1) mod deg == 0`
holds, yet Bezier-mode creation fails with `TS_NUM_KNOTS`: three control
points cannot be partitioned into groups of `order = 2`, and a knot vector
made of groups of `order` equal knots must satisfy
`order ∣ n_ctrl + deg + 1`, which forces `n_ctrl mod (deg + 1) == 0`. -/
theorem ts_bspline_new_beziers_counterexample :
    (3 - 1) % 1 = 0 ∧
    ts_bspline_new 3 1 1 .TS_BEZIERS = .error .TS_NUM_KNOTS := by
  constructor
  · norm_num
  · norm_num [ts_bspline_new]

/-- Witness for C6: the amended theorem applied to a cubic with eight
control points (two Bezier segments). -/
theorem ts_bspline_new_beziers_witness :
    ((8 : ℕ) % (3 + 1) = 0 →
      ts_bspline_new 8 2 3 .TS_BEZIERS =
        .ok ⟨3, 2, List.replicate 8 (List.replicate 2 0),
          ts_knots_beziers 3 (8 + 3 + 1)⟩ ∧
      ts_knots_beziers 3 (8 + 3 + 1) =
        (List.range (8 / (3 + 1) + 1)).flatMap
          (fun g => List.replicate (3 + 1)
            ((g : ℚ) / ((8 / (3 + 1) : ℕ) : ℚ)))) ∧
    ((8 : ℕ) % (3 + 1) ≠ 0 →
      ts_bspline_new 8 2 3 .TS_BEZIERS = .error .TS_NUM_KNOTS) :=
  ts_bspline_new_beziers_amended 8 2 3 (by norm_num) (by norm_num)

/-- C9: for every input point list and every `alpha` outside `[0, 1]`,
`ts_bspline_interpolate_catmull_rom` produces exactly the same result as
the call with `alpha` clamped to the nearest bound (`alpha < 0` behaves as
`0`, `alpha > 1` behaves as `1`); in particular an out-of-range `alpha`
never causes an error that the clamped call would not cause.  Stated for
every knot-parameterization power function `powf`. -/
theorem ts_bspline_interpolate_catmull_rom_alpha_clamp
    (powf : List ℚ → List ℚ → ℚ → ℚ) (points : List ℚ)
    (num dim : ℕ) (alpha : ℚ) (first last : Option (List ℚ)) (eps : ℚ) :
    (alpha < 0 →
      ts_bspline_interpolate_catmull_rom powf points num dim alpha
        first last eps =
      ts_bspline_interpolate_catmull_rom powf points num dim 0
        first last eps) ∧
    (1 < alpha →
      ts_bspline_interpolate_catmull_rom powf points num dim alpha
        first last eps =
      ts_bspline_interpolate_catmull_rom powf points num dim 1
        first last eps) := by
  constructor
  · intro h
    have hc : (if alpha < 0 then (0:ℚ) else if 1 < alpha then 1 else alpha) =
        (if (0:ℚ) < 0 then (0:ℚ) else if (1:ℚ) < 0 then 1 else 0) := by
      rw [if_pos h]
      norm_num
    unfold ts_bspline_interpolate_catmull_rom
    rw [hc]
  · intro h
    have hc : (if alpha < 0 then (0:ℚ) else if 1 < alpha then 1 else alpha) =
        (if (1:ℚ) < 0 then (0:ℚ) else if (1:ℚ) < 1 then 1 else 1) := by
      rw [if_neg (by linarith), if_pos h]
      norm_num
    unfold ts_bspline_interpolate_catmull_rom
    rw [hc]

/-- Witness for C9 at the scenario points `(0,0), (1,1), (2,0)` with the
out-of-range parameterizations `alpha = -1` and `alpha = 2` and a concrete
power function. -/
theorem ts_bspline_interpolate_catmull_rom_alpha_clamp_witness :
    (((-1 : ℚ) < 0) ∧
      ts_bspline_interpolate_catmull_rom (fun _ _ _ => 1) [0,0,1,1,2,0]
        3 2 (-1) none none (1/100) =
      ts_bspline_interpolate_catmull_rom (fun _ _ _ => 1) [0,0,1,1,2,0]
        3 2 0 none none (1/100)) ∧
    ((1 : ℚ) < 2 ∧
      ts_bspline_interpolate_catmull_rom (fun _ _ _ => 1) [0,0,1,1,2,0]
        3 2 2 none none (1/100) =
      ts_bspline_interpolate_catmull_rom (fun _ _ _ => 1) [0,0,1,1,2,0]
        3 2 1 none none (1/100)) :=
  ⟨⟨by norm_num, (ts_bspline_interpolate_catmull_rom_alpha_clamp
      (fun _ _ _ => 1) [0,0,1,1,2,0] 3 2 (-1) none none (1/100)).1
    (by norm_num)⟩,
   ⟨by norm_num, (ts_bspline_interpolate_catmull_rom_alpha_clamp
      (fun _ _ _ => 1) [0,0,1,1,2,0] 3 2 2 none none (1/100)).2
    (by norm_num)⟩⟩

theorem ts_int_length_flatMap_const {α β : Type} (l : List α)
    (f : α → List β) (k : ℕ) (h : ∀ x ∈ l, (f x).length = k) :
    (l.flatMap f).length = l.length * k := by
  induction l with
  | nil => simp
  | cons x xs ih =>
      rw [List.flatMap_cons, List.length_append, h x (List.mem_cons_self x xs),
        ih (fun y hy => h y (List.mem_cons_of_mem x hy)), List.length_cons]
      ring

theorem ts_int_chain_replicate (k : ℕ) (x : ℚ) :
    (List.replicate k x).Chain' (· ≤ ·) := by
  induction k with
  | zero => simp
  | succ m ih =>
      rw [List.replicate_succ]
      cases m with
      | zero => simp
      | succ p =>
          rw [List.replicate_succ]
          exact List.Chain'.cons (le_refl x)
            (by rw [← List.replicate_succ]; exact ih)

theorem ts_int_mem_flatMap_replicate (k : ℕ) (f : ℕ → ℚ) (G : ℕ) (x : ℚ)
    (hx : x ∈ (List.range G).flatMap (fun g => List.replicate k (f g))) :
    ∃ g, g < G ∧ f g = x := by
  obtain ⟨g, hg, hmem⟩ := List.mem_flatMap.mp hx
  exact ⟨g, List.mem_range.mp hg, ((List.eq_of_mem_replicate hmem).symm)⟩

theorem ts_int_chain_flatMap_replicate (k : ℕ) (f : ℕ → ℚ) (G : ℕ)
    (hf : ∀ i j, i ≤ j → f i ≤ f j) :
    ((List.range G).flatMap
      (fun g => List.replicate k (f g))).Chain' (· ≤ ·) := by
  induction G with
  | zero => simp
  | succ m ih =>
      rw [List.range_succ, List.flatMap_append]
      rw [List.chain'_append]
      refine ⟨ih, by simp [ts_int_chain_replicate], ?_⟩
      intro x hx y hy
      have hxm : x ∈ (List.range m).flatMap
          (fun g => List.replicate k (f g)) := by
        exact List.mem_of_mem_getLast? hx
      obtain ⟨g, hg, hgx⟩ := ts_int_mem_flatMap_replicate k f m x hxm
      have hym : y ∈ List.replicate k (f m) := by
        have : y ∈ [m].flatMap (fun g => List.replicate k (f g)) :=
          List.mem_of_mem_head? hy
        simpa using this
      rw [← hgx, List.eq_of_mem_replicate hym]
      exact hf g m (by omega)

theorem ts_int_count_flatMap_replicate (k : ℕ) (f : ℕ → ℚ) (G : ℕ)
    (hinj : ∀ i j, i < G → j < G → f i = f j → i = j) (x : ℚ) :
    ((List.range G).flatMap
      (fun g => List.replicate k (f g))).count x ≤ k := by
  induction G with
  | zero => simp
  | succ m ih =>
      rw [List.range_succ, List.flatMap_append, List.count_append]
      have hcrep : ([m].flatMap
          (fun g => List.replicate k (f g))).count x =
          if x = f m then k else 0 := by
        simp only [List.flatMap_cons, List.flatMap_nil, List.append_nil,
          List.count_replicate, beq_iff_eq]
        by_cases hq : x = f m
        · rw [if_pos hq.symm, if_pos hq]
        · rw [if_neg (fun hq2 => hq hq2.symm), if_neg hq]
      by_cases hxm : x = f m
      · have hzero : ((List.range m).flatMap
            (fun g => List.replicate k (f g))).count x = 0 := by
          rw [List.count_eq_zero]
          intro hmem
          obtain ⟨g, hg, hgx⟩ := ts_int_mem_flatMap_replicate k f m x hmem
          have : g = m := hinj g m (by omega) (by omega) (by rw [hgx, hxm])
          omega
        rw [hzero, hcrep, if_pos hxm]
        omega
      · have hle := ih (fun i j hi hj => hinj i j (by omega) (by omega))
        rw [hcrep, if_neg hxm]
        omega

theorem ts_int_bezier_chain_wellformed (dim : ℕ) (ctrl : List (List ℚ))
    (segs : ℕ) (hdim : 0 < dim) (hsegs : 1 ≤ segs)
    (hlen : ctrl.length = 4 * segs)
    (hdims : ∀ p ∈ ctrl, p.length = dim) :
    WellFormed ⟨3, dim, ctrl, ts_knots_beziers 3 (ctrl.length + 4)⟩ := by
  have hG : (ctrl.length + 4) / (3 + 1) = segs + 1 := by
    rw [hlen]
    omega
  have hc : (((segs + 1 : ℕ) : ℚ) - 1) = (segs : ℚ) := by
    push_cast
    ring
  have hcpos : (0 : ℚ) < (segs : ℚ) := by exact_mod_cast hsegs
  have hbez : ts_knots_beziers 3 (ctrl.length + 4) =
      (List.range (segs + 1)).flatMap
        (fun g => List.replicate 4 ((g : ℚ) * ((1 : ℚ) / (segs : ℚ)))) := by
    unfold ts_knots_beziers
    rw [hG]
    congr 1
    funext g
    rw [TS_DOMAIN_DEFAULT_MIN, TS_DOMAIN_DEFAULT_MAX, hc]
    norm_num
  have hmono : ∀ i j : ℕ, i ≤ j →
      (i : ℚ) * ((1 : ℚ) / (segs : ℚ)) ≤ (j : ℚ) * (1 / (segs : ℚ)) := by
    intro i j hij
    have hij2 : (i : ℚ) ≤ (j : ℚ) := by exact_mod_cast hij
    have hfac : (0 : ℚ) ≤ 1 / (segs : ℚ) := by positivity
    nlinarith
  have hinj : ∀ i j : ℕ, i < segs + 1 → j < segs + 1 →
      (i : ℚ) * ((1 : ℚ) / (segs : ℚ)) = (j : ℚ) * (1 / (segs : ℚ)) →
      i = j := by
    intro i j hi hj hij
    have hfac : (0 : ℚ) < 1 / (segs : ℚ) := by positivity
    have : (i : ℚ) = (j : ℚ) := by
      by_contra hne
      rcases lt_or_gt_of_ne hne with hlt | hgt
      · nlinarith
      · nlinarith
    exact_mod_cast this
  have hkl : (ts_knots_beziers 3 (ctrl.length + 4)).length =
      ctrl.length + 4 := by
    rw [hbez, ts_int_length_flatMap_const _ _ 4
      (fun x _ => List.length_replicate ..), List.length_range, hlen]
    ring
  refine ⟨hdim, hdims, ?_, ?_, ?_, ?_⟩
  · show 3 < ctrl.length
    omega
  · show (ts_knots_beziers 3 (ctrl.length + 4)).length = ctrl.length + 3 + 1
    omega
  · show (ts_knots_beziers 3 (ctrl.length + 4)).Chain' (· ≤ ·)
    rw [hbez]
    exact ts_int_chain_flatMap_replicate 4 _ (segs + 1) hmono
  · intro u hu
    show (ts_knots_beziers 3 (ctrl.length + 4)).count u ≤ 3 + 1
    rw [hbez]
    exact ts_int_count_flatMap_replicate 4 _ (segs + 1) hinj u

theorem ts_int_point_spline_wellformed (dim : ℕ) (p : List ℚ)
    (hdim : 0 < dim) (hp : p.length = dim) :
    WellFormed ⟨0, dim, [p], ts_knots_clamped 0 2⟩ := by
  have hk : ts_knots_clamped 0 2 = [0, 1] := by
    unfold ts_knots_clamped
    rw [show List.range 2 = [0, 1] by rfl]
    norm_num [TS_DOMAIN_DEFAULT_MIN, TS_DOMAIN_DEFAULT_MAX]
  refine ⟨hdim, ?_, ?_, ?_, ?_, ?_⟩
  · intro q hq
    rw [List.mem_singleton.mp hq]
    exact hp
  · show 0 < 1
    omega
  · show (ts_knots_clamped 0 2).length = 1 + 0 + 1
    rw [hk]
    rfl
  · show (ts_knots_clamped 0 2).Chain' (· ≤ ·)
    rw [hk]
    norm_num
  · intro u hu
    show (ts_knots_clamped 0 2).count u ≤ 0 + 1
    rw [hk] at hu ⊢
    rcases List.mem_cons.mp hu with rfl | hu2
    · simp [List.count_cons]
    · rw [List.mem_singleton.mp hu2]
      simp [List.count_cons]

theorem ts_int_getD_mem {α : Type} (l : List α) (i : ℕ) (d : α)
    (h : i < l.length) : l.getD i d ∈ l := by
  rw [List.getD_eq_getElem l d h]
  exact List.getElem_mem _

theorem ts_int_pt_add_length (x y : List ℚ) :
    (ts_int_pt_add x y).length = min x.length y.length :=
  List.length_zipWith ..

theorem ts_int_pt_sub_length (x y : List ℚ) :
    (ts_int_pt_sub x y).length = min x.length y.length :=
  List.length_zipWith ..

theorem ts_int_pt_smul_length (a : ℚ) (x : List ℚ) :
    (ts_int_pt_smul a x).length = x.length :=
  List.length_map ..

theorem ts_int_chunk_points_length (points : List ℚ) (num dim : ℕ) :
    (ts_int_chunk_points points num dim).length = num := by
  unfold ts_int_chunk_points
  rw [List.length_map, List.length_range]

theorem ts_int_chunk_points_dims (points : List ℚ) (num dim : ℕ)
    (hlen : points.length = num * dim) :
    ∀ p ∈ ts_int_chunk_points points num dim, p.length = dim := by
  intro p hp
  obtain ⟨i, hi, rfl⟩ := List.mem_map.mp hp
  have hir : i < num := List.mem_range.mp hi
  rw [List.length_take, List.length_drop, hlen]
  have : dim ≤ num * dim - i * dim := by
    have h1 : (i + 1) * dim ≤ num * dim := Nat.mul_le_mul_right dim hir
    have h2 : (i + 1) * dim = i * dim + dim := by ring
    omega
  omega

theorem ts_int_thomas_forward_dims (dim : ℕ) (ds : List (List ℚ))
    (cprev : ℚ) (dprev : List ℚ) (hds : ∀ d ∈ ds, d.length = dim)
    (hprev : dprev.length = dim) :
    ∀ pr ∈ ts_int_thomas_forward dim ds cprev dprev, pr.2.length = dim := by
  induction ds generalizing cprev dprev with
  | nil => intro pr hpr; cases hpr
  | cons d rest ih =>
      intro pr hpr
      have hd : d.length = dim := hds d (List.mem_cons_self ..)
      have hdp : (ts_int_pt_smul (1 / (4 - cprev))
          (ts_int_pt_sub d dprev)).length = dim := by
        rw [ts_int_pt_smul_length, ts_int_pt_sub_length, hd, hprev]
        omega
      rcases List.mem_cons.mp hpr with rfl | hmem
      · exact hdp
      · exact ih _ _ (fun q hq => hds q (List.mem_cons_of_mem d hq))
          hdp pr hmem

theorem ts_int_thomas_backward_dims (dim : ℕ) (rows : List (ℚ × List ℚ))
    (acc : List (List ℚ)) (hrows : ∀ pr ∈ rows, pr.2.length = dim)
    (hacc : ∀ a ∈ acc, a.length = dim) :
    ∀ M ∈ ts_int_thomas_backward rows acc, M.length = dim := by
  induction rows generalizing acc with
  | nil => exact fun M hM => hacc M hM
  | cons r rest ih =>
      intro M hM
      have hr : r.2.length = dim := hrows r (List.mem_cons_self ..)
      cases acc with
      | nil =>
          refine ih _ (fun q hq => hrows q (List.mem_cons_of_mem r hq)) ?_
            M hM
          intro a ha
          rw [List.mem_singleton.mp ha]
          exact hr
      | cons mnext restacc =>
          have hnew : (ts_int_pt_sub r.2
              (ts_int_pt_smul r.1 mnext)).length = dim := by
            rw [ts_int_pt_sub_length, ts_int_pt_smul_length, hr,
              hacc mnext (List.mem_cons_self ..)]
            omega
          refine ih _ (fun q hq => hrows q (List.mem_cons_of_mem r hq)) ?_
            M hM
          intro a ha
          rcases List.mem_cons.mp ha with rfl | hmem
          · exact hnew
          · exact hacc a hmem

theorem ts_int_natural_ms_dims (pts : List (List ℚ)) (dim : ℕ)
    (hpts : ∀ p ∈ pts, p.length = dim) :
    ∀ m ∈ ts_int_natural_ms pts dim, m.length = dim := by
  intro m hm
  unfold ts_int_natural_ms at hm
  have hz : (List.replicate dim (0 : ℚ)).length = dim :=
    List.length_replicate ..
  have hds : ∀ d ∈ (List.range (pts.length - 2)).map
      (fun i => ts_int_pt_smul 6 (ts_int_pt_add
        (ts_int_pt_sub (pts.getD i []) (ts_int_pt_smul 2
          (pts.getD (i + 1) []))) (pts.getD (i + 2) []))),
      d.length = dim := by
    intro d hd
    obtain ⟨i, hi, rfl⟩ := List.mem_map.mp hd
    have hir : i < pts.length - 2 := List.mem_range.mp hi
    have h0 : (pts.getD i []).length = dim :=
      hpts _ (ts_int_getD_mem pts i [] (by omega))
    have h1 : (pts.getD (i + 1) []).length = dim :=
      hpts _ (ts_int_getD_mem pts (i + 1) [] (by omega))
    have h2 : (pts.getD (i + 2) []).length = dim :=
      hpts _ (ts_int_getD_mem pts (i + 2) [] (by omega))
    rw [ts_int_pt_smul_length, ts_int_pt_add_length, ts_int_pt_sub_length,
      ts_int_pt_smul_length, h0, h1, h2]
    omega
  rcases List.mem_cons.mp hm with rfl | hm2
  · exact hz
  · rcases List.mem_append.mp hm2 with hm3 | hm4
    · refine ts_int_thomas_backward_dims dim _ [] ?_ (fun a ha => by cases ha)
        m hm3
      intro pr hpr
      exact ts_int_thomas_forward_dims dim _ 0 (List.replicate dim 0) hds hz
        pr (List.mem_reverse.mp hpr)
    · rw [List.mem_singleton.mp hm4]
      exact hz

theorem ts_int_natural_segment_dims (dim : ℕ) (p0 p1 m0 m1 : List ℚ)
    (h0 : p0.length = dim) (h1 : p1.length = dim) (hm0 : m0.length = dim)
    (hm1 : m1.length = dim) :
    ∀ p ∈ ts_int_natural_segment p0 p1 m0 m1, p.length = dim := by
  intro p hp
  unfold ts_int_natural_segment at hp
  have hd0 : (ts_int_pt_sub (ts_int_pt_sub p1 p0)
      (ts_int_pt_add (ts_int_pt_smul (1 / 3) m0)
        (ts_int_pt_smul (1 / 6) m1))).length = dim := by
    rw [ts_int_pt_sub_length, ts_int_pt_sub_length, ts_int_pt_add_length,
      ts_int_pt_smul_length, ts_int_pt_smul_length, h0, h1, hm0, hm1]
    omega
  have hd1 : (ts_int_pt_add (ts_int_pt_sub p1 p0)
      (ts_int_pt_add (ts_int_pt_smul (1 / 6) m0)
        (ts_int_pt_smul (1 / 3) m1))).length = dim := by
    rw [ts_int_pt_add_length, ts_int_pt_sub_length, ts_int_pt_add_length,
      ts_int_pt_smul_length, ts_int_pt_smul_length, h0, h1, hm0, hm1]
    omega
  rcases List.mem_cons.mp hp with rfl | hp2
  · exact h0
  rcases List.mem_cons.mp hp2 with rfl | hp3
  · rw [ts_int_pt_add_length, ts_int_pt_smul_length, hd0, h0]
    omega
  rcases List.mem_cons.mp hp3 with rfl | hp4
  · rw [ts_int_pt_sub_length, ts_int_pt_smul_length, hd1, h1]
    omega
  rcases List.mem_cons.mp hp4 with rfl | hp5
  · exact h1
  cases hp5

theorem ts_int_thomas_forward_length (dim : ℕ) (ds : List (List ℚ))
    (cprev : ℚ) (dprev : List ℚ) :
    (ts_int_thomas_forward dim ds cprev dprev).length = ds.length := by
  induction ds generalizing cprev dprev with
  | nil => rfl
  | cons d rest ih =>
      unfold ts_int_thomas_forward
      rw [List.length_cons, List.length_cons, ih]

theorem ts_int_thomas_backward_length (rows : List (ℚ × List ℚ))
    (acc : List (List ℚ)) :
    (ts_int_thomas_backward rows acc).length = rows.length + acc.length := by
  induction rows generalizing acc with
  | nil => simp [ts_int_thomas_backward]
  | cons r rest ih =>
      cases acc with
      | nil =>
          show (ts_int_thomas_backward rest [r.2]).length = _
          rw [ih]
          simp
      | cons mnext restacc =>
          show (ts_int_thomas_backward rest
            (ts_int_pt_sub r.2 (ts_int_pt_smul r.1 mnext) ::
              mnext :: restacc)).length = _
          rw [ih]
          simp
          omega

theorem ts_int_natural_ms_length (pts : List (List ℚ)) (dim : ℕ)
    (h2 : 2 ≤ pts.length) :
    (ts_int_natural_ms pts dim).length = pts.length := by
  unfold ts_int_natural_ms
  rw [List.length_cons, List.length_append, List.length_singleton,
    ts_int_thomas_backward_length, List.length_reverse,
    ts_int_thomas_forward_length, List.length_map, List.length_range,
    List.length_nil]
  omega

theorem ts_int_interpolate_cubic_natural_spec (points : List ℚ)
    (n dim : ℕ) (hdim : 1 ≤ dim) (hn : 1 ≤ n)
    (hlen : points.length = n * dim) :
    ∃ S, ts_bspline_interpolate_cubic_natural points n dim = .ok S ∧
      WellFormed S ∧
      (2 ≤ n → ts_bspline_num_control_points S = (n - 1) * 4 ∧
        ts_bspline_degree S = 3 ∧
        S.knots = ts_knots_beziers 3 ((n - 1) * 4 + 4)) ∧
      (n = 1 → ts_bspline_degree S = 0 ∧
        ts_bspline_num_control_points S = 1) := by
  have hchlen : (ts_int_chunk_points points n dim).length = n :=
    ts_int_chunk_points_length points n dim
  have hchdims : ∀ p ∈ ts_int_chunk_points points n dim, p.length = dim :=
    ts_int_chunk_points_dims points n dim hlen
  unfold ts_bspline_interpolate_cubic_natural
  rw [if_neg (by omega), if_neg (by omega)]
  by_cases hone : n = 1
  · rw [if_pos hone]
    have hhead : (ts_int_chunk_points points n dim).headD [] =
        (ts_int_chunk_points points n dim).getD 0 [] := by
      cases ts_int_chunk_points points n dim <;> rfl
    have hheadlen : ((ts_int_chunk_points points n dim).headD []).length =
        dim := by
      rw [hhead]
      exact hchdims _ (ts_int_getD_mem _ 0 [] (by omega))
    refine ⟨_, rfl, ?_, ?_, ?_⟩
    · exact ts_int_point_spline_wellformed dim _ (by omega) hheadlen
    · intro h2
      omega
    · intro _
      exact ⟨rfl, rfl⟩
  · rw [if_neg hone]
    have hn2 : 2 ≤ n := by omega
    have hseglen : ∀ i ∈ List.range (n - 1),
        (ts_int_natural_segment ((ts_int_chunk_points points n dim).getD i [])
          ((ts_int_chunk_points points n dim).getD (i + 1) [])
          ((ts_int_natural_ms (ts_int_chunk_points points n dim) dim).getD
            i [])
          ((ts_int_natural_ms (ts_int_chunk_points points n dim) dim).getD
            (i + 1) [])).length = 4 := fun i _ => rfl
    have hctrllen : ((List.range (n - 1)).flatMap
        (fun i => ts_int_natural_segment
          ((ts_int_chunk_points points n dim).getD i [])
          ((ts_int_chunk_points points n dim).getD (i + 1) [])
          ((ts_int_natural_ms (ts_int_chunk_points points n dim) dim).getD
            i [])
          ((ts_int_natural_ms (ts_int_chunk_points points n dim) dim).getD
            (i + 1) []))).length = (n - 1) * 4 := by
      rw [ts_int_length_flatMap_const _ _ 4 hseglen, List.length_range]
    have hmslen : (ts_int_natural_ms
        (ts_int_chunk_points points n dim) dim).length = n := by
      rw [ts_int_natural_ms_length _ _ (by omega)]
      exact hchlen
    have hmsdims := ts_int_natural_ms_dims
      (ts_int_chunk_points points n dim) dim hchdims
    have hctrldims : ∀ p ∈ (List.range (n - 1)).flatMap
        (fun i => ts_int_natural_segment
          ((ts_int_chunk_points points n dim).getD i [])
          ((ts_int_chunk_points points n dim).getD (i + 1) [])
          ((ts_int_natural_ms (ts_int_chunk_points points n dim) dim).getD
            i [])
          ((ts_int_natural_ms (ts_int_chunk_points points n dim) dim).getD
            (i + 1) [])), p.length = dim := by
      intro p hp
      obtain ⟨i, hi, hpseg⟩ := List.mem_flatMap.mp hp
      have hir : i < n - 1 := List.mem_range.mp hi
      refine ts_int_natural_segment_dims dim _ _ _ _ ?_ ?_ ?_ ?_ p hpseg
      · exact hchdims _ (ts_int_getD_mem _ i [] (by omega))
      · exact hchdims _ (ts_int_getD_mem _ (i + 1) [] (by omega))
      · exact hmsdims _ (ts_int_getD_mem _ i [] (by omega))
      · exact hmsdims _ (ts_int_getD_mem _ (i + 1) [] (by omega))
    refine ⟨_, rfl, ?_, ?_, ?_⟩
    · have hwf := ts_int_bezier_chain_wellformed dim _ (n - 1) (by omega)
        (by omega) (by rw [hctrllen]; ring) hctrldims
      exact hwf
    · intro _
      refine ⟨hctrllen, rfl, ?_⟩
      show ts_knots_beziers 3 (((List.range (n - 1)).flatMap _).length + 4) =
        ts_knots_beziers 3 ((n - 1) * 4 + 4)
      rw [hctrllen]
    · intro h1
      omega

theorem ts_int_filter_dupes_go_subset (eps : ℚ) (prev : List ℚ)
    (l : List (List ℚ)) :
    ∀ q ∈ ts_int_filter_dupes_go eps prev l, q ∈ l := by
  induction l generalizing prev with
  | nil => intro q hq; cases hq
  | cons x rest ih =>
      intro q hq
      unfold ts_int_filter_dupes_go at hq
      by_cases hd : ts_distance_le prev x eps = true
      · rw [if_pos hd] at hq
        exact List.mem_cons_of_mem x (ih prev q hq)
      · rw [if_neg hd] at hq
        rcases List.mem_cons.mp hq with rfl | hmem
        · exact List.mem_cons_self ..
        · exact List.mem_cons_of_mem x (ih x q hmem)

theorem ts_int_filter_dupes_subset (eps : ℚ) (l : List (List ℚ)) :
    ∀ q ∈ ts_int_filter_dupes eps l, q ∈ l := by
  cases l with
  | nil => intro q hq; cases hq
  | cons p rest =>
      intro q hq
      rcases List.mem_cons.mp hq with rfl | hmem
      · exact List.mem_cons_self ..
      · exact List.mem_cons_of_mem p
          (ts_int_filter_dupes_go_subset eps p rest q hmem)

theorem ts_int_filter_dupes_ne_nil (eps : ℚ) (l : List (List ℚ))
    (hl : l ≠ []) : ts_int_filter_dupes eps l ≠ [] := by
  cases l with
  | nil => exact absurd rfl hl
  | cons p rest =>
      show p :: ts_int_filter_dupes_go eps p rest ≠ []
      exact List.cons_ne_nil _ _

theorem ts_int_catmull_segment_dims (dim : ℕ)
    (powf : List ℚ → List ℚ → ℚ → ℚ) (alpha : ℚ) (p0 p1 p2 p3 : List ℚ)
    (h0 : p0.length = dim) (h1 : p1.length = dim) (h2 : p2.length = dim)
    (h3 : p3.length = dim) :
    ∀ p ∈ ts_int_catmull_segment powf alpha p0 p1 p2 p3,
      p.length = dim := by
  intro p hp
  unfold ts_int_catmull_segment at hp
  simp only [List.mem_cons, List.not_mem_nil, or_false] at hp
  rcases hp with rfl | rfl | rfl | rfl
  all_goals
    simp [ts_int_pt_add_length, ts_int_pt_sub_length,
      ts_int_pt_smul_length, h0, h1, h2, h3]

theorem ts_int_getLastD_mem {α : Type} (l : List α) (d : α) (hl : l ≠ []) :
    l.getLastD d ∈ l := by
  induction l with
  | nil => exact absurd rfl hl
  | cons x rest ih =>
      cases rest with
      | nil => simp
      | cons y t =>
          rw [List.getLastD_cons]
          exact List.mem_cons_of_mem x (ih (List.cons_ne_nil _ _))

theorem ts_int_headD_eq_getD {α : Type} (l : List α) (d : α) :
    l.headD d = l.getD 0 d := by
  cases l <;> rfl

theorem ts_int_catmull_ghost_length (dim : ℕ) (eps : ℚ)
    (given : Option (List ℚ)) (anchor neighbor : List ℚ)
    (ha : anchor.length = dim) (hb : neighbor.length = dim)
    (hg : ∀ f, given = some f → f.length = dim) :
    (ts_int_catmull_ghost eps given anchor neighbor).length = dim := by
  have hmir : (ts_int_pt_sub (ts_int_pt_smul 2 anchor) neighbor).length =
      dim := by
    rw [ts_int_pt_sub_length, ts_int_pt_smul_length, ha, hb]
    omega
  cases given with
  | none => exact hmir
  | some f =>
      show (if ts_distance_le f anchor eps then
        ts_int_pt_sub (ts_int_pt_smul 2 anchor) neighbor else f).length = dim
      by_cases hdist : ts_distance_le f anchor eps = true
      · rw [if_pos hdist]
        exact hmir
      · rw [if_neg hdist]
        exact hg f rfl

theorem ts_int_catmull_segment_length (powf : List ℚ → List ℚ → ℚ → ℚ)
    (alpha : ℚ) (p0 p1 p2 p3 : List ℚ) :
    (ts_int_catmull_segment powf alpha p0 p1 p2 p3).length = 4 := rfl

theorem ts_int_interpolate_catmull_rom_spec
    (powf : List ℚ → List ℚ → ℚ → ℚ) (points : List ℚ) (n dim : ℕ)
    (alpha : ℚ) (first last : Option (List ℚ)) (eps : ℚ)
    (hdim : 1 ≤ dim) (hn : 1 ≤ n) (hlen : points.length = n * dim)
    (hfirst : ∀ f, first = some f → f.length = dim)
    (hlast : ∀ f, last = some f → f.length = dim) :
    ∃ S, ts_bspline_interpolate_catmull_rom powf points n dim alpha
      first last eps = .ok S ∧ WellFormed S := by
  have hchdims := ts_int_chunk_points_dims points n dim hlen
  have hchlen := ts_int_chunk_points_length points n dim
  have hchne : ts_int_chunk_points points n dim ≠ [] := by
    intro hnil
    rw [hnil] at hchlen
    simp at hchlen
    omega
  have hptsne : ts_int_filter_dupes |eps|
      (ts_int_chunk_points points n dim) ≠ [] :=
    ts_int_filter_dupes_ne_nil _ _ hchne
  have hptsdims : ∀ q ∈ ts_int_filter_dupes |eps|
      (ts_int_chunk_points points n dim), q.length = dim :=
    fun q hq => hchdims q (ts_int_filter_dupes_subset _ _ q hq)
  have hptslen : 1 ≤ (ts_int_filter_dupes |eps|
      (ts_int_chunk_points points n dim)).length :=
    Nat.pos_of_ne_zero (fun h => hptsne (List.eq_nil_of_length_eq_zero h))
  simp only [ts_bspline_interpolate_catmull_rom]
  rw [if_neg (by omega), if_neg (by omega)]
  set P := ts_int_filter_dupes |eps| (ts_int_chunk_points points n dim)
    with hPdef
  by_cases hm1 : P.length = 1
  · rw [if_pos hm1]
    refine ⟨_, rfl, ?_⟩
    refine ts_int_point_spline_wellformed dim _ (by omega) ?_
    rw [ts_int_headD_eq_getD]
    exact hptsdims _ (ts_int_getD_mem _ 0 [] (by omega))
  · rw [if_neg hm1]
    have hm2 : 2 ≤ P.length := by omega
    have h0 : (P.headD []).length = dim := by
      rw [ts_int_headD_eq_getD]
      exact hptsdims _ (ts_int_getD_mem _ 0 [] (by omega))
    have h1 : (P.getD 1 []).length = dim :=
      hptsdims _ (ts_int_getD_mem _ 1 [] (by omega))
    have hq1 : (P.getD (P.length - 2) []).length = dim :=
      hptsdims _ (ts_int_getD_mem _ _ [] (by omega))
    have hq0 : (P.getLastD []).length = dim :=
      hptsdims _ (ts_int_getLastD_mem _ [] hptsne)
    set gf := ts_int_catmull_ghost |eps| first (P.headD []) (P.getD 1 [])
      with hgfdef
    set gl := ts_int_catmull_ghost |eps| last (P.getLastD [])
      (P.getD (P.length - 2) []) with hgldef
    have hgf : gf.length = dim :=
      ts_int_catmull_ghost_length dim _ first _ _ h0 h1 hfirst
    have hgl : gl.length = dim :=
      ts_int_catmull_ghost_length dim _ last _ _ hq0 hq1 hlast
    set E := gf :: P ++ [gl] with hEdef
    have hextdims : ∀ q ∈ E, q.length = dim := by
      intro q hq
      rw [hEdef] at hq
      rcases List.mem_cons.mp hq with rfl | hq2
      · exact hgf
      · rcases List.mem_append.mp hq2 with hq3 | hq4
        · exact hptsdims q hq3
        · rw [List.mem_singleton.mp hq4]
          exact hgl
    have hextlen : E.length = P.length + 2 := by
      rw [hEdef]
      simp
    refine ⟨_, rfl, ?_⟩
    refine ts_int_bezier_chain_wellformed dim _ (P.length - 1)
      (by omega) (by omega) ?_ ?_
    · rw [ts_int_length_flatMap_const _ _ 4
        (fun i _ => ts_int_catmull_segment_length powf _ _ _ _ _),
        List.length_range]
      ring
    · intro p hp
      obtain ⟨i, hi, hpseg⟩ := List.mem_flatMap.mp hp
      have hir : i < P.length - 1 := List.mem_range.mp hi
      refine ts_int_catmull_segment_dims dim powf _ _ _ _ _ ?_ ?_ ?_ ?_
        p hpseg
      · exact hextdims _ (ts_int_getD_mem _ i [] (by omega))
      · exact hextdims _ (ts_int_getD_mem _ (i + 1) [] (by omega))
      · exact hextdims _ (ts_int_getD_mem _ (i + 2) [] (by omega))
      · exact hextdims _ (ts_int_getD_mem _ (i + 3) [] (by omega))

/-- C4 (amended): for every `n ≥ 1`, `dim ≥ 1` and point buffer of length
`n * dim`, `ts_bspline_interpolate_cubic_natural` succeeds; for `n ≥ 2` the
result has exactly `(n - 1) * 4` control points, degree `3` and a
Bezier-mode knot vector, and for `n = 1` the result is the degenerate
degree-0 point — one control point, not `max(1, n - 1) * 4 = 4` of them as
the original count formula would demand (see the counterexample).  In
particular interpolating `4` points yields `12` control points. -/
theorem ts_bspline_interpolate_cubic_natural_amended (points : List ℚ)
    (n dim : ℕ) (hdim : 1 ≤ dim) (hn : 1 ≤ n)
    (hlen : points.length = n * dim) :
    ∃ S, ts_bspline_interpolate_cubic_natural points n dim = .ok S ∧
      (2 ≤ n → ts_bspline_num_control_points S = (n - 1) * 4 ∧
        ts_bspline_degree S = 3 ∧
        S.knots = ts_knots_beziers 3 ((n - 1) * 4 + 4)) ∧
      (n = 1 → ts_bspline_degree S = 0 ∧
        ts_bspline_num_control_points S = 1) := by
  obtain ⟨S, hok, -, hbig, hone⟩ :=
    ts_int_interpolate_cubic_natural_spec points n dim hdim hn hlen
  exact ⟨S, hok, hbig, hone⟩

/-- C4 (counterexample to the original claim): interpolating a single
point (`n = 1`, `dim = 1`) yields the degenerate degree-0 point spline
with exactly one control point, while the claimed formula
`max(1, n - 1) * 4` demands four. -/
theorem ts_bspline_interpolate_cubic_natural_counterexample :
    (ts_bspline_interpolate_cubic_natural [5] 1 1).toOption.map
      (fun S => ts_bspline_num_control_points S) = some 1 ∧
    max 1 (1 - 1) * 4 = 4 ∧ (1 : ℕ) ≠ 4 := by
  refine ⟨?_, by norm_num, by norm_num⟩
  norm_num [ts_bspline_interpolate_cubic_natural, ts_int_chunk_points,
    List.range_succ, ts_bspline_num_control_points, Except.toOption]

/-- Witness for C4: the amended theorem applied to the four points of
scenario S4, giving `(4 - 1) * 4 = 12` control points. -/
theorem ts_bspline_interpolate_cubic_natural_witness :
    ∃ S, ts_bspline_interpolate_cubic_natural [0,0,1,1,2,0,3,1] 4 2 =
        .ok S ∧
      (2 ≤ 4 → ts_bspline_num_control_points S = (4 - 1) * 4 ∧
        ts_bspline_degree S = 3 ∧
        S.knots = ts_knots_beziers 3 ((4 - 1) * 4 + 4)) ∧
      (4 = 1 → ts_bspline_degree S = 0 ∧
        ts_bspline_num_control_points S = 1) :=
  ts_bspline_interpolate_cubic_natural_amended [0,0,1,1,2,0,3,1] 4 2
    (by norm_num) (by norm_num) (by norm_num)

/-- C10 (amended): both interpolation constructors return `TS_DIM_ZERO`
whenever the dimension is zero (this check comes first, so at
`dim = 0, n = 0` the result is `TS_DIM_ZERO` — not `TS_NUM_POINTS` as the
original claim would simultaneously demand); they return `TS_NUM_POINTS`
whenever the point count is zero and the dimension is positive; and for
every positive dimension and point count (with a point buffer of matching
length and, for catmull-rom, optional end points of matching dimension)
they succeed and produce a structurally well-formed spline. -/
theorem ts_bspline_interpolate_errors_amended
    (powf : List ℚ → List ℚ → ℚ → ℚ) (points : List ℚ) (n dim : ℕ)
    (alpha : ℚ) (first last : Option (List ℚ)) (eps : ℚ)
    (hlen : points.length = n * dim)
    (hfirst : ∀ f, first = some f → f.length = dim)
    (hlast : ∀ f, last = some f → f.length = dim) :
    (dim = 0 →
      ts_bspline_interpolate_cubic_natural points n dim =
        .error .TS_DIM_ZERO ∧
      ts_bspline_interpolate_catmull_rom powf points n dim alpha
        first last eps = .error .TS_DIM_ZERO) ∧
    (1 ≤ dim → n = 0 →
      ts_bspline_interpolate_cubic_natural points n dim =
        .error .TS_NUM_POINTS ∧
      ts_bspline_interpolate_catmull_rom powf points n dim alpha
        first last eps = .error .TS_NUM_POINTS) ∧
    (1 ≤ dim → 1 ≤ n →
      (∃ S, ts_bspline_interpolate_cubic_natural points n dim = .ok S ∧
        WellFormed S) ∧
      (∃ T, ts_bspline_interpolate_catmull_rom powf points n dim alpha
        first last eps = .ok T ∧ WellFormed T)) := by
  refine ⟨?_, ?_, ?_⟩
  · intro hdim0
    constructor
    · unfold ts_bspline_interpolate_cubic_natural
      rw [if_pos hdim0]
    · unfold ts_bspline_interpolate_catmull_rom
      rw [if_pos hdim0]
  · intro hdim hn0
    constructor
    · unfold ts_bspline_interpolate_cubic_natural
      rw [if_neg (by omega), if_pos hn0]
    · unfold ts_bspline_interpolate_catmull_rom
      rw [if_neg (by omega), if_pos hn0]
  · intro hdim hn
    constructor
    · obtain ⟨S, hok, hwf, -, -⟩ :=
        ts_int_interpolate_cubic_natural_spec points n dim hdim hn hlen
      exact ⟨S, hok, hwf⟩
    · exact ts_int_interpolate_catmull_rom_spec powf points n dim alpha
        first last eps hdim hn hlen hfirst hlast

/-- C10 (counterexample to the original claim): at `dim = 0` and `n = 0`
both constructors return `TS_DIM_ZERO`, so the original requirement that
`TS_NUM_POINTS` be returned whenever `num_points == 0` cannot hold there
(the two demanded error codes are distinct). -/
theorem ts_bspline_interpolate_errors_counterexample :
    ts_bspline_interpolate_cubic_natural [] 0 0 = .error .TS_DIM_ZERO ∧
    ts_bspline_interpolate_catmull_rom (fun _ _ _ => 0) [] 0 0 0
      none none 0 = .error .TS_DIM_ZERO ∧
    TsError.TS_DIM_ZERO ≠ TsError.TS_NUM_POINTS := by
  refine ⟨?_, ?_, by intro h; cases h⟩
  · unfold ts_bspline_interpolate_cubic_natural
    rw [if_pos rfl]
  · unfold ts_bspline_interpolate_catmull_rom
    rw [if_pos rfl]

/-- Witness for C10 at two one-dimensional points. -/
theorem ts_bspline_interpolate_errors_witness :
    ((1 : ℕ) = 0 →
      ts_bspline_interpolate_cubic_natural [1, 2] 2 1 =
        .error .TS_DIM_ZERO ∧
      ts_bspline_interpolate_catmull_rom (fun _ _ _ => 1) [1, 2] 2 1 (1/2)
        none none (1/100) = .error .TS_DIM_ZERO) ∧
    ((1 : ℕ) ≤ 1 → (2 : ℕ) = 0 →
      ts_bspline_interpolate_cubic_natural [1, 2] 2 1 =
        .error .TS_NUM_POINTS ∧
      ts_bspline_interpolate_catmull_rom (fun _ _ _ => 1) [1, 2] 2 1 (1/2)
        none none (1/100) = .error .TS_NUM_POINTS) ∧
    ((1 : ℕ) ≤ 1 → (1 : ℕ) ≤ 2 →
      (∃ S, ts_bspline_interpolate_cubic_natural [1, 2] 2 1 = .ok S ∧
        WellFormed S) ∧
      (∃ T, ts_bspline_interpolate_catmull_rom (fun _ _ _ => 1) [1, 2] 2 1
        (1/2) none none (1/100) = .ok T ∧ WellFormed T)) :=
  ts_bspline_interpolate_errors_amended (fun _ _ _ => 1) [1, 2] 2 1 (1/2)
    none none (1/100) (by norm_num)
    (fun f hf => by cases hf) (fun f hf => by cases hf)
